import Mathlib

/-!
Shallow embedding of the habitica-party-podium core (src/main.py) and proofs
about it.  Machine reals are modelled by `ℚ` (exact arithmetic; the claims
under study do not depend on binary floating-point rounding), Python dicts by
insertion-ordered association lists, and Python exceptions by `Except Unit`.

Part 1: data model and the event pipeline
  (filter_recent_boss_messages, aggregate_user_damage, aggregate_team_skills,
   generate_markdown_report).
Part 2: the document section merge (replace_podium_section).
-/

/-- A value found in a numeric damage field of an event (`info.get(...)`):
absent, a value that `float()` coerces to the rational `q`, or a present but
non-numeric value on which `float()` raises. -/
inductive FieldVal where
  | absent
  | num (q : ℚ)
  | bad
deriving DecidableEq, Repr

/-- A value found in the `times` (cast count) field: `int()` coerces it to an
integer, or raises on a non-numeric value.  `none` at the `Msg` level models
an absent field (Python default 1). -/
inductive IntVal where
  | num (n : ℤ)
  | bad
deriving DecidableEq, Repr

/-- One chat message, with the fields the core reads:
`info.type`, `info.user`, `timestamp` (epoch milliseconds; absent models a
dict without the key, so `msg["timestamp"]` raises), `info.userDamage`,
`info.bossDamage`, `info.times`. -/
structure Msg where
  msgType : Option String
  user : Option String
  timestamp : Option ℤ
  userDamage : FieldVal
  bossDamage : FieldVal
  times : Option IntVal
deriving DecidableEq, Repr

/-- `filter_recent_boss_messages`: keep messages whose `info.type` is
"boss_damage" and whose timestamp, divided by 1000 (ms → s), is an instant at
or after `now - days·86400` seconds.  The Python list comprehension evaluates
`msg["timestamp"]` only when the type test passed (short-circuit `and`), and
raises `KeyError` (modelled by `.error ()`) when the key is absent.  Instants
are rational seconds since the epoch; there is no upper-bound comparison. -/
def filter_recent_boss_messages (chat : List Msg) (days : ℤ) (now : ℚ) :
    Except Unit (List Msg) :=
  match chat with
  | [] => .ok []
  | m :: ms =>
    if m.msgType = some "boss_damage" then
      match m.timestamp with
      | none => .error ()
      | some ts =>
        match filter_recent_boss_messages ms days now with
        | .error e => .error e
        | .ok r =>
          .ok (if (ts : ℚ) / 1000 ≥ now - (days : ℚ) * 86400 then m :: r else r)
    else filter_recent_boss_messages ms days now

/-- Per-actor damage stats: insertion-ordered association list
actor ↦ (userDamage total, bossDamage total), modelling the Python dict
`{user: {"userDamage": float, "bossDamage": float}}`. -/
abbrev DamageStats := List (String × ℚ × ℚ)

/-- Is there an entry for key `u`? (`user in stats`) -/
def hasKey (st : DamageStats) (u : String) : Bool :=
  st.any (fun e => e.1 = u)

/-- `stats[user] = {"userDamage": 0.0, "bossDamage": 0.0}` on first sight. -/
def ensureKey (st : DamageStats) (u : String) : DamageStats :=
  if hasKey st u then st else st ++ [(u, 0, 0)]

/-- Add `c` componentwise to the entry for key `u` (keys are unique). -/
def addStat (st : DamageStats) (u : String) (c : ℚ × ℚ) : DamageStats :=
  st.map (fun e => if e.1 = u then (e.1, e.2.1 + c.1, e.2.2 + c.2) else e)

/-- Net effect of the `try` block of `aggregate_user_damage` on one event:
`float(user_damage)` is attempted first (when present), then
`float(boss_damage)`; the first failure raises and the shared handler abandons
the rest of the event, so a bad `userDamage` also suppresses the `bossDamage`
addition, while a bad `bossDamage` leaves the already-performed `userDamage`
addition in place. -/
def tryAddDamage (ud bd : FieldVal) : ℚ × ℚ :=
  match ud with
  | .bad => (0, 0)
  | .absent =>
    match bd with
    | .num y => (0, y)
    | _ => (0, 0)
  | .num x =>
    match bd with
    | .num y => (x, y)
    | _ => (x, 0)

/-- Processing of a single message by `aggregate_user_damage`: skip when
`info.user` is falsy (absent or empty), otherwise create the actor's entry on
first sight and apply the guarded additions. -/
def damageStep (st : DamageStats) (m : Msg) : DamageStats :=
  match m.user with
  | none => st
  | some u =>
    if u = "" then st
    else addStat (ensureKey st u) u (tryAddDamage m.userDamage m.bossDamage)

/-- `aggregate_user_damage`: fold the per-message step over the list,
starting from the empty dict.  Total (never raises): both coercion failures
are caught by the `except (ValueError, TypeError)` handler. -/
def aggregate_user_damage (msgs : List Msg) : DamageStats :=
  msgs.foldl damageStep []

/-- Look up an actor's totals, defaulting to (0, 0) when absent. -/
def lookupStat (st : DamageStats) (u : String) : ℚ × ℚ :=
  match st.find? (fun e => e.1 = u) with
  | some e => e.2
  | none => (0, 0)

/-- The (userDamage, bossDamage) contribution of one message to actor `u`'s
totals: zero unless the message carries actor `u`. -/
def damageContrib (m : Msg) (u : String) : ℚ × ℚ :=
  match m.user with
  | none => (0, 0)
  | some v =>
    if v = "" then (0, 0)
    else if v = u then tryAddDamage m.userDamage m.bossDamage else (0, 0)

/-- First-seen order of the (truthy) actors of a message list: the key
insertion order of the Python stats dict. -/
def seenActors (msgs : List Msg) : List String :=
  msgs.foldl
    (fun acc m =>
      match m.user with
      | none => acc
      | some u => if u = "" then acc else if u ∈ acc then acc else acc ++ [u])
    []

/-- Per-actor skill cast counts: insertion-ordered association list,
modelling the Python dict `{user: total_count}`. -/
abbrev SkillStats := List (String × ℤ)

/-- `int(times)` where `times = info.get("times", 1)`: default 1 when the
field is absent, the integer value when numeric, an uncaught exception
(modelled by `none`) when present but non-numeric. -/
def timesCoerce (t : Option IntVal) : Option ℤ :=
  match t with
  | none => some 1
  | some (.num n) => some n
  | some .bad => none

/-- Processing of a single message by `aggregate_team_skills`: the aggregator
itself discards messages whose `info.type` is not "spell_cast_party" and
messages with a falsy `info.user`; for the rest, `int(times)` may raise
(`.error ()`), otherwise the count is added to the actor's entry. -/
def skillStep (st : SkillStats) (m : Msg) : Except Unit SkillStats :=
  if m.msgType = some "spell_cast_party" then
    match m.user with
    | none => .ok st
    | some u =>
      if u = "" then .ok st
      else
        match timesCoerce m.times with
        | none => .error ()
        | some n =>
          let st1 := if st.any (fun e => e.1 = u) then st else st ++ [(u, 0)]
          .ok (st1.map (fun e => if e.1 = u then (e.1, e.2 + n) else e))
  else .ok st

/-- `aggregate_team_skills`: monadic fold in `Except`; the first uncaught
`int()` failure aborts the whole call. -/
def aggregate_team_skills (msgs : List Msg) : Except Unit SkillStats :=
  msgs.foldlM skillStep []

/-- Look up an actor's cast count, defaulting to 0 when absent. -/
def lookupSkill (st : SkillStats) (u : String) : ℤ :=
  match st.find? (fun e => e.1 = u) with
  | some e => e.2
  | none => 0

/-- First-seen order of the truthy casters of spell-cast events: the key
insertion order of the Python skills dict (on runs where no `int(times)`
raises, i.e. whenever the aggregator returns normally). -/
def seenSkillActors (msgs : List Msg) : List String :=
  msgs.foldl
    (fun acc m =>
      if m.msgType = some "spell_cast_party" then
        match m.user with
        | none => acc
        | some u => if u = "" then acc else if u ∈ acc then acc else acc ++ [u]
      else acc)
    []

/-- Python `sorted(l, key=key, reverse=True)`: a stable descending sort. -/
def pySortedDescBy (key : α → ℚ) (l : List α) : List α :=
  l.mergeSort (fun x y => decide (key y ≤ key x))

/-- The ranked, truncated damage-dealt list used by the report renderer:
`sorted(user_stats.items(), key=..userDamage.., reverse=True)[:top_n]`. -/
def top_user_damage (stats : DamageStats) (topN : ℕ) : DamageStats :=
  (pySortedDescBy (fun e => e.2.1) stats).take topN

/-- The ranked, truncated damage-taken list used by the report renderer. -/
def top_boss_damage (stats : DamageStats) (topN : ℕ) : DamageStats :=
  (pySortedDescBy (fun e => e.2.2) stats).take topN

/-- The ranked skill list used by the report renderer
(`sorted(team_skills.items(), key=..count.., reverse=True)`). -/
def sorted_skills (sk : SkillStats) : SkillStats :=
  pySortedDescBy (fun e => (e.2 : ℚ)) sk

/-- A calendar date, standing for the `datetime` values the report formats
with `strftime('%Y-%m-%d')`. -/
structure Date where
  year : ℕ
  month : ℕ
  day : ℕ
deriving DecidableEq, Repr

/-- Zero-pad to two digits. -/
def pad2 (n : ℕ) : String :=
  if n < 10 then "0" ++ toString n else toString n

/-- `strftime('%Y-%m-%d')`. -/
def fmtDate (d : Date) : String :=
  toString d.year ++ "-" ++ pad2 d.month ++ "-" ++ pad2 d.day

/-- One-decimal formatting of a damage total (Python `f"...:.1f"`), with
round-half-to-even at the tenths digit.  This abstracts CPython's rendering
of binary doubles; the claims proved below do not depend on the digits. -/
def fmt1 (q : ℚ) : String :=
  let t : ℚ := q * 10
  let r : ℤ := if 2 * (t - ⌊t⌋) = 1 then (if 2 ∣ ⌊t⌋ then ⌊t⌋ else ⌊t⌋ + 1) else ⌊t + 1 / 2⌋
  let a : ℕ := r.natAbs
  (if r < 0 then "-" else "") ++ toString (a / 10) ++ "." ++ toString (a % 10)

/-- Number list entries from 1 (`enumerate(..., 1)`). -/
def enumFrom1 (l : List α) : List (ℕ × α) :=
  l.enum.map (fun p => (p.1 + 1, p.2))

/-- One line of the damage-dealt ranking. -/
def userDamageLine (p : ℕ × String × ℚ × ℚ) : String :=
  toString p.1 ++ ". " ++ p.2.1 ++ "\tDamage Dealt: " ++ fmt1 p.2.2.1

/-- One line of the damage-taken ranking. -/
def bossDamageLine (p : ℕ × String × ℚ × ℚ) : String :=
  toString p.1 ++ ". " ++ p.2.1 ++ "\tDamage Taken: " ++ fmt1 p.2.2.2

/-- One line of the skills ranking. -/
def skillLine (p : ℕ × String × ℤ) : String :=
  toString p.1 ++ ". " ++ p.2.1 ++ "\tSkills Cast: " ++ toString p.2.2 ++ " times"

/-- `generate_markdown_report`: the fixed-structure podium text.  The skills
subsection is rendered only when `team_skills` is truthy (present and
non-empty). -/
def generate_markdown_report (user_stats : DamageStats) (period_start period_end : Date)
    (topN : ℕ) (team_skills : Option SkillStats) : String :=
  let md1 : List String :=
    ["", "**Period:** " ++ fmtDate period_start ++ " → " ++ fmtDate period_end,
     "", "### 💪 Top Damage Dealers"] ++
    (enumFrom1 (top_user_damage user_stats topN)).map userDamageLine ++
    ["", "### 💀 Top Damage Taken"] ++
    (enumFrom1 (top_boss_damage user_stats topN)).map bossDamageLine
  let md2 : List String :=
    match team_skills with
    | none => []
    | some sk =>
      if sk = [] then []
      else
        ["", "### ✨ Most Team Skills Cast"] ++
        (enumFrom1 ((sorted_skills sk).take topN)).map skillLine
  String.intercalate "\n" (md1 ++ md2)

/-!
Part 2: the document section merge (`replace_podium_section`).

Documents are `List Char`.  The regex
`(## 🏆 Podium[\s\S]*?)(?=\n## |\Z)` matches, at each occurrence of the
literal header, the lazily minimal span extending to just before the next
newline-plus-top-level-header marker, or to end of text; `re.sub` replaces
every such non-overlapping match (scanning resumes at each match end), and
`re.search` succeeds exactly when the literal header occurs.  The replacement
string is a template: `re.sub` first compiles it (a bad escape such as a
backslash before an unknown ASCII letter raises `re.error`, modelled here by
`Except.error`), then expands it at each match, substituting the matched text
for the group references `\g<0>`, `\g<1>` and `\1` (group 1 of this pattern
is the whole match, the lookahead being zero-width).  A replacement with no
backslash is inserted verbatim (CPython short-circuits template compilation
in that case, so such a replacement can never raise).
-/

/-- Characters Python `str.strip()` removes: the full `str.isspace()` set
(ASCII whitespace and separators U+0009..U+000D, U+001C..U+0020, plus the
Unicode whitespace NEL, NBSP, OGHAM SPACE MARK, U+2000..U+200A, LINE and
PARAGRAPH SEPARATOR, NARROW NO-BREAK SPACE, MEDIUM MATHEMATICAL SPACE and
IDEOGRAPHIC SPACE). -/
def pyWS (c : Char) : Bool :=
  let n := c.toNat
  (9 ≤ n && n ≤ 13) || (28 ≤ n && n ≤ 32) || n = 0x85 || n = 0xA0 ||
    n = 0x1680 || (0x2000 ≤ n && n ≤ 0x200A) || n = 0x2028 || n = 0x2029 ||
    n = 0x202F || n = 0x205F || n = 0x3000

/-- Python `str.lstrip()`. -/
def lstrip (l : List Char) : List Char :=
  l.dropWhile pyWS

/-- Python `str.rstrip()`. -/
def rstrip (l : List Char) : List Char :=
  (l.reverse.dropWhile pyWS).reverse

/-- Python `str.strip()`. -/
def pstrip (l : List Char) : List Char :=
  rstrip (lstrip l)

/-- The literal section header `## 🏆 Podium` (11 characters). -/
def headerL : List Char :=
  [ '#', '#', ' ', '🏆', ' ', 'P', 'o', 'd', 'i', 'u', 'm' ]

/-- The lookahead marker `\n## ` that ends a section span. -/
def sepL : List Char :=
  [ '\n', '#', '#', ' ' ]

/-- Does the span-ending marker start here? -/
def isSep (l : List Char) : Bool :=
  sepL.isPrefixOf l

/-- Advance to the first position where the span-ending marker starts,
returning the remaining suffix ([] when no marker follows: the lazy body then
extends to end of text). -/
def dropToSep : List Char → List Char
  | [] => []
  | c :: cs => if isSep (c :: cs) then c :: cs else dropToSep cs

/-- Does the marker `\n## ` occur anywhere in `l`? -/
def hasSep : List Char → Bool
  | [] => false
  | c :: cs => isSep (c :: cs) || hasSep cs

/-- Does the literal header occur anywhere in `l` (`re.search` succeeds)? -/
def containsHeader : List Char → Bool
  | [] => false
  | c :: cs => headerL.isPrefixOf (c :: cs) || containsHeader cs

/-- Does a backslash occur in the text?  CPython's `re.sub` compiles the
replacement as a template exactly when it contains one, and inserts it
verbatim otherwise. -/
def hasBS : List Char → Bool
  | [] => false
  | c :: cs => c = '\\' || hasBS cs

/-- The lazily minimal span body: the text up to (excluding) the first
position where the span-ending marker starts. -/
def takeToSep : List Char → List Char
  | [] => []
  | c :: cs => if isSep (c :: cs) then [] else c :: takeToSep cs

/-- ASCII decimal digit? -/
def isDec (c : Char) : Bool := '0' ≤ c && c ≤ '9'

/-- ASCII octal digit? -/
def isOct (c : Char) : Bool := '0' ≤ c && c ≤ '7'

/-- ASCII letter? -/
def isALetter (c : Char) : Bool := ('a' ≤ c && c ≤ 'z') || ('A' ≤ c && c ≤ 'Z')

/-- Value of an ASCII digit. -/
def decVal (c : Char) : ℕ := c.toNat - 48

/-- Value of a run of ASCII decimal digits. -/
def decName (l : List Char) : ℕ := l.foldl (fun acc c => acc * 10 + decVal c) 0

/-- The fixed character escapes of `sre_parse.ESCAPES` (`\a \b \f \n \r \t \v`). -/
def escChar (c : Char) : Option Char :=
  if c = 'a' then some '\x07'
  else if c = 'b' then some '\x08'
  else if c = 'f' then some '\x0C'
  else if c = 'n' then some '\n'
  else if c = 'r' then some '\r'
  else if c = 't' then some '\t'
  else if c = 'v' then some '\x0B'
  else none

/-- One piece of a compiled `re.sub` replacement template: literal text, or a
reference to a capture group (group 0 being the whole match). -/
inductive TemplChunk where
  | lit (s : List Char)
  | group (n : ℕ)
deriving DecidableEq

/-- Parse one escape sequence (the text after a backslash), following
`sre_parse.parse_template` for our pattern (one unnamed group): `\g<0>`,
`\g<1>` and `\1` are group references; `\0` with up to two more octal digits,
and three octal digits, are character escapes (masked to a byte); a second
decimal digit extends a group number; `\a \b \f \n \r \t \v \\` are the fixed
escapes; any other escaped ASCII letter, a backslash at end of text, a
malformed `\g` reference and a group number above 1 are errors (`none`); an
escaped non-letter is kept with its backslash.  Group names are modelled for
ASCII-decimal names, the only ones this 0-named-group pattern accepts. -/
def parseEscape : List Char → Option (TemplChunk × List Char)
  | [] => none
  | 'g' :: rest =>
    (match rest with
     | '<' :: rest2 =>
       (match rest2.dropWhile (fun c => !(c = '>')) with
        | '>' :: rest3 =>
          let name := rest2.takeWhile (fun c => !(c = '>'))
          if name = [] then none
          else if name.all isDec then
            if decName name ≤ 1 then some (.group (decName name), rest3) else none
          else none
        | _ => none)
     | _ => none)
  | '0' :: rest =>
    (match rest with
     | d₁ :: rest2 =>
       if isOct d₁ then
         (match rest2 with
          | d₂ :: rest3 =>
            if isOct d₂ then
              some (.lit [Char.ofNat ((decVal d₁ * 8 + decVal d₂) % 256)], rest3)
            else some (.lit [Char.ofNat (decVal d₁)], rest2)
          | [] => some (.lit [Char.ofNat (decVal d₁)], []))
       else some (.lit [Char.ofNat 0], rest)
     | [] => some (.lit [Char.ofNat 0], []))
  | d :: rest =>
    if isDec d then
      (match rest with
       | d₂ :: rest2 =>
         if isDec d₂ then
           (match rest2 with
            | d₃ :: rest3 =>
              if isOct d && isOct d₂ && isOct d₃ then
                some (.lit [Char.ofNat ((decVal d * 64 + decVal d₂ * 8 + decVal d₃) % 256)],
                  rest3)
              else if decName [d, d₂] ≤ 1 then some (.group (decName [d, d₂]), rest2)
              else none
            | [] =>
              if decName [d, d₂] ≤ 1 then some (.group (decName [d, d₂]), []) else none)
         else if decVal d ≤ 1 then some (.group (decVal d), rest) else none
       | [] => if decVal d ≤ 1 then some (.group (decVal d), []) else none)
    else
      match escChar d with
      | some c => some (.lit [c], rest)
      | none =>
        if d = '\\' then some (.lit [ '\\' ], rest)
        else if isALetter d then none
        else some (.lit [ '\\', d ], rest)

/-- `sre_parse.parse_template`: split the replacement into literal chunks and
group references, or fail (`none` models `re.error`).  The fuel (an upper
bound on the text length, used only to make the recursion structural) never
runs out when started at the length, since each step consumes at least one
character. -/
def parseTemplateGo : ℕ → List Char → Option (List TemplChunk)
  | _, [] => some []
  | 0, _ :: _ => none
  | fuel + 1, c :: rest =>
    if c = '\\' then
      match parseEscape rest with
      | none => none
      | some p =>
        match parseTemplateGo fuel p.2 with
        | none => none
        | some chunks => some (p.1 :: chunks)
    else
      match parseTemplateGo fuel rest with
      | none => none
      | some chunks => some (TemplChunk.lit [c] :: chunks)

/-- Compile a replacement template (`none` models `re.error`). -/
def parseTemplate (t : List Char) : Option (List TemplChunk) :=
  parseTemplateGo t.length t

/-- Expand a compiled template at a match: every group reference is
substituted by the matched text (groups 0 and 1 of this pattern both span the
whole match, the lookahead being zero-width). -/
def expandTemplate (chunks : List TemplChunk) (m : List Char) : List Char :=
  match chunks with
  | [] => []
  | .lit s :: rest => s ++ expandTemplate rest m
  | .group _ :: rest => m ++ expandTemplate rest m

/-- Fuel-indexed scanning loop of the substitution with a constant (escape
free, hence literally inserted) replacement; the fuel (an upper bound on the
length of the remaining text, used only to make the recursion structural)
never runs out when it starts at the text's length, because each consumed
span is non-empty. -/
def replaceAllGo (S : List Char) : ℕ → List Char → List Char
  | _, [] => []
  | 0, l => l
  | fuel + 1, c :: cs =>
    if headerL.isPrefixOf (c :: cs) then
      S ++ replaceAllGo S fuel (dropToSep (List.drop headerL.length (c :: cs)))
    else
      c :: replaceAllGo S fuel cs

/-- `re.sub` of the section pattern by a backslash-free replacement `S`
(inserted verbatim): scan left to right; at each occurrence of the literal
header, consume the lazily minimal span (to just before the next `\n## `, or
to end of text), emit `S`, and resume scanning at the span end.  The general
template form `reSub` below agrees with this on backslash-free replacements
(`reSub_lits`). -/
def replaceAll (S l : List Char) : List Char :=
  replaceAllGo S l.length l

/-- Scanning loop of the substitution with a compiled template: at each
occurrence of the literal header, the template is expanded at the matched
span (header plus lazily minimal body). -/
def reSubGo (chunks : List TemplChunk) : ℕ → List Char → List Char
  | _, [] => []
  | 0, l => l
  | fuel + 1, c :: cs =>
    if headerL.isPrefixOf (c :: cs) then
      expandTemplate chunks (headerL ++ takeToSep (List.drop headerL.length (c :: cs))) ++
        reSubGo chunks fuel (dropToSep (List.drop headerL.length (c :: cs)))
    else
      c :: reSubGo chunks fuel cs

/-- `re.sub` of the section pattern by a compiled replacement template. -/
def reSub (chunks : List TemplChunk) (l : List Char) : List Char :=
  reSubGo chunks l.length l

/-- The rebuilt section text: `sectionHeader + "\n\n" + newBody.strip() + "\n"`. -/
def newPodiumSection (podium_md : List Char) : List Char :=
  headerL ++ '\n' :: '\n' :: pstrip podium_md ++ [ '\n' ]

/-- `replace_podium_section`: strip the document; if the header occurs,
compile the rebuilt section as a `re.sub` replacement template (a bad escape
raises `re.error`, modelled by `.error ()`) and substitute every section span
by its expansion at that span; else append the rebuilt section literally
after a blank-line separator, plus a trailing newline (plain string
concatenation: no template processing on the append path). -/
def replace_podium_section (description podium_md : List Char) :
    Except Unit (List Char) :=
  let d := pstrip description
  if containsHeader d then
    match parseTemplate (newPodiumSection podium_md) with
    | none => .error ()
    | some chunks => .ok (reSub chunks d)
  else
    .ok (rstrip d ++ '\n' :: '\n' :: (newPodiumSection podium_md ++ [ '\n' ]))

/-- No occurrence of the header starts inside `t` when `t` is followed by the
text `rest` (occurrences may read past the end of `t` into `rest`). -/
def scanNoHeader : List Char → List Char → Bool
  | [], _ => true
  | c :: cs, rest => !(headerL.isPrefixOf (c :: cs ++ rest)) && scanNoHeader cs rest

/-- A body the merge handles cleanly: nonempty once trimmed, not starting
with a top-level header marker, containing no span-ending marker, and
containing no backslash (a backslash would make `re.sub` reinterpret the
rebuilt section as a replacement template: an unknown letter escape raises
`re.error` and a group reference expands to the matched span instead). -/
def goodBody (b : List Char) : Bool :=
  !(b.isEmpty) && !(([ '#', '#', ' ' ] : List Char).isPrefixOf b) && !(hasSep b) &&
    !(hasBS b)

/-!
Theorems.  First, bookkeeping lemmas about the association-list dictionaries,
then the claims about the event pipeline, then the claims about the merge.
-/

theorem hasKey_iff (st : DamageStats) (u : String) :
    hasKey st u = true ↔ u ∈ st.map Prod.fst := by
  rw [hasKey, List.any_eq_true]
  constructor
  · rintro ⟨e, he, hp⟩
    exact List.mem_map.mpr ⟨e, he, by simpa using hp⟩
  · intro hm
    obtain ⟨e, he, rfl⟩ := List.mem_map.mp hm
    exact ⟨e, he, by simp⟩

theorem lookupStat_cons (e : String × ℚ × ℚ) (es : DamageStats) (u : String) :
    lookupStat (e :: es) u = if e.1 = u then e.2 else lookupStat es u := by
  by_cases he : e.1 = u
  · unfold lookupStat
    rw [List.find?_cons_of_pos _ (by simpa using he)]
    exact (if_pos he).symm
  · unfold lookupStat
    rw [List.find?_cons_of_neg _ (by simpa using he)]
    exact (if_neg he).symm

theorem addStat_cons (e : String × ℚ × ℚ) (es : DamageStats) (v : String) (c : ℚ × ℚ) :
    addStat (e :: es) v c =
      (if e.1 = v then (e.1, e.2.1 + c.1, e.2.2 + c.2) else e) :: addStat es v c := rfl

theorem hasKey_cons (e : String × ℚ × ℚ) (es : DamageStats) (u : String) :
    hasKey (e :: es) u = (decide (e.1 = u) || hasKey es u) := by
  simp [hasKey]

theorem lookupStat_ensureKey (st : DamageStats) (v u : String) :
    lookupStat (ensureKey st v) u = lookupStat st u := by
  unfold ensureKey
  split
  · rfl
  · unfold lookupStat
    rw [List.find?_append]
    cases hfind : st.find? (fun e => decide (e.1 = u)) with
    | some e => simp
    | none =>
      by_cases huv : v = u
      · subst huv
        simp
      · simp [List.find?_cons_of_neg, huv]

theorem hasKey_ensureKey (st : DamageStats) (u : String) :
    hasKey (ensureKey st u) u = true := by
  unfold ensureKey
  split
  · assumption
  · simp [hasKey, List.any_append]

theorem hasKey_addStat (st : DamageStats) (v u : String) (c : ℚ × ℚ) :
    hasKey (addStat st v c) u = hasKey st u := by
  induction st with
  | nil => rfl
  | cons e es ih =>
    rw [addStat_cons, hasKey_cons, hasKey_cons, ih]
    by_cases he : e.1 = v <;> simp [he]

theorem lookupStat_addStat_self (st : DamageStats) (u : String) (c : ℚ × ℚ)
    (h : hasKey st u = true) :
    lookupStat (addStat st u c) u = lookupStat st u + c := by
  induction st with
  | nil => simp [hasKey] at h
  | cons e es ih =>
    rw [addStat_cons]
    by_cases he : e.1 = u
    · rw [if_pos he, lookupStat_cons, lookupStat_cons]
      rw [if_pos (show ((e.1, e.2.1 + c.1, e.2.2 + c.2) : String × ℚ × ℚ).1 = u from he)]
      rw [if_pos he]
      apply Prod.ext <;> simp
    · rw [if_neg he, lookupStat_cons, lookupStat_cons, if_neg he, if_neg he]
      apply ih
      rw [hasKey_cons] at h
      simpa [he] using h

theorem lookupStat_addStat_ne (st : DamageStats) (v u : String) (c : ℚ × ℚ)
    (h : u ≠ v) :
    lookupStat (addStat st v c) u = lookupStat st u := by
  induction st with
  | nil => rfl
  | cons e es ih =>
    rw [addStat_cons]
    by_cases hv : e.1 = v
    · have he2 : ¬(e.1 = u) := by rw [hv]; exact fun hh => h hh.symm
      rw [if_pos hv, lookupStat_cons, lookupStat_cons]
      rw [if_neg (show ¬(((e.1, e.2.1 + c.1, e.2.2 + c.2) : String × ℚ × ℚ).1 = u) from he2)]
      rw [if_neg he2]
      exact ih
    · rw [if_neg hv, lookupStat_cons, lookupStat_cons]
      by_cases he : e.1 = u
      · rw [if_pos he, if_pos he]
      · rw [if_neg he, if_neg he]
        exact ih

theorem lookupStat_damageStep (st : DamageStats) (m : Msg) (u : String) :
    lookupStat (damageStep st m) u = lookupStat st u + damageContrib m u := by
  unfold damageStep damageContrib
  cases m.user with
  | none => simp [Prod.mk_zero_zero]
  | some v =>
    show lookupStat
        (if v = "" then st else addStat (ensureKey st v) v (tryAddDamage m.userDamage m.bossDamage)) u =
      lookupStat st u +
        (if v = "" then (0, 0)
         else if v = u then tryAddDamage m.userDamage m.bossDamage else (0, 0))
    by_cases hv : v = ""
    · simp [hv, Prod.mk_zero_zero]
    · rw [if_neg hv, if_neg hv]
      by_cases hvu : v = u
      · rw [if_pos hvu]
        subst hvu
        rw [lookupStat_addStat_self _ _ _ (hasKey_ensureKey st v), lookupStat_ensureKey]
      · rw [if_neg hvu]
        rw [lookupStat_addStat_ne _ _ _ _ (fun hh => hvu hh.symm), lookupStat_ensureKey]
        simp [Prod.mk_zero_zero]

theorem damageStep_some (st : DamageStats) (m : Msg) (u : String)
    (hu : m.user = some u) (hne : u ≠ "") :
    damageStep st m = addStat (ensureKey st u) u (tryAddDamage m.userDamage m.bossDamage) := by
  unfold damageStep
  rw [hu]
  exact if_neg hne

theorem damageContrib_some (m : Msg) (u : String) (hu : m.user = some u) (hne : u ≠ "") :
    damageContrib m u = tryAddDamage m.userDamage m.bossDamage := by
  unfold damageContrib
  rw [hu]
  show (if u = "" then ((0 : ℚ), (0 : ℚ))
    else if u = u then tryAddDamage m.userDamage m.bossDamage else ((0 : ℚ), (0 : ℚ))) = _
  rw [if_neg hne, if_pos rfl]

theorem lookupStat_foldl (msgs : List Msg) (st : DamageStats) (u : String) :
    lookupStat (msgs.foldl damageStep st) u =
      lookupStat st u + (msgs.map (fun m => damageContrib m u)).sum := by
  induction msgs generalizing st with
  | nil => simp
  | cons m ms ih => simp [List.foldl_cons, ih, lookupStat_damageStep, add_assoc]

theorem lookupStat_aggregate (msgs : List Msg) (u : String) :
    lookupStat (aggregate_user_damage msgs) u =
      (msgs.map (fun m => damageContrib m u)).sum := by
  unfold aggregate_user_damage
  rw [lookupStat_foldl]
  simp [lookupStat]

theorem lookupSkill_cons (e : String × ℤ) (es : SkillStats) (u : String) :
    lookupSkill (e :: es) u = if e.1 = u then e.2 else lookupSkill es u := by
  by_cases he : e.1 = u
  · unfold lookupSkill
    rw [List.find?_cons_of_pos _ (by simpa using he)]
    exact (if_pos he).symm
  · unfold lookupSkill
    rw [List.find?_cons_of_neg _ (by simpa using he)]
    exact (if_neg he).symm

theorem lookupSkill_append_new (st : SkillStats) (v u : String) :
    lookupSkill (st ++ [(v, 0)]) u = lookupSkill st u := by
  unfold lookupSkill
  rw [List.find?_append]
  cases hfind : st.find? (fun e => decide (e.1 = u)) with
  | some e => simp
  | none =>
    by_cases huv : v = u
    · subst huv
      simp
    · simp [List.find?_cons_of_neg, huv]

theorem lookupSkill_bump_self (st : SkillStats) (u : String) (n : ℤ)
    (h : st.any (fun e => e.1 = u) = true) :
    lookupSkill (st.map (fun e => if e.1 = u then (e.1, e.2 + n) else e)) u =
      lookupSkill st u + n := by
  induction st with
  | nil => simp at h
  | cons e es ih =>
    rw [List.map_cons]
    by_cases he : e.1 = u
    · rw [if_pos he, lookupSkill_cons, lookupSkill_cons]
      rw [if_pos (show ((e.1, e.2 + n) : String × ℤ).1 = u from he), if_pos he]
    · rw [if_neg he, lookupSkill_cons, lookupSkill_cons, if_neg he, if_neg he]
      apply ih
      simpa [he] using h

theorem lookupSkill_bump_ne (st : SkillStats) (v u : String) (n : ℤ)
    (h : u ≠ v) :
    lookupSkill (st.map (fun e => if e.1 = v then (e.1, e.2 + n) else e)) u =
      lookupSkill st u := by
  induction st with
  | nil => rfl
  | cons e es ih =>
    rw [List.map_cons]
    by_cases hv : e.1 = v
    · have he : ¬(e.1 = u) := by rw [hv]; exact fun hh => h hh.symm
      rw [if_pos hv, lookupSkill_cons, lookupSkill_cons]
      rw [if_neg (show ¬(((e.1, e.2 + n) : String × ℤ).1 = u) from he), if_neg he]
      exact ih
    · rw [if_neg hv, lookupSkill_cons, lookupSkill_cons]
      by_cases he : e.1 = u
      · rw [if_pos he, if_pos he]
      · rw [if_neg he, if_neg he]
        exact ih

theorem skill_any_ensure (st : SkillStats) (u : String) :
    ((if st.any (fun e => e.1 = u) then st else st ++ [(u, 0)]).any
      (fun e => e.1 = u)) = true := by
  split
  · assumption
  · simp [List.any_append]

/-- Claim C10: the skill aggregator discards events of every kind other than
"spell_cast_party" itself, so running it on an unfiltered list equals running
it on the pre-filtered skill-kind sub-list. -/
theorem aggregate_team_skills_self_filtering (msgs : List Msg) :
    aggregate_team_skills msgs =
      aggregate_team_skills (msgs.filter (fun m => m.msgType = some "spell_cast_party")) := by
  suffices h : ∀ st : SkillStats, msgs.foldlM skillStep st =
      (msgs.filter (fun m => m.msgType = some "spell_cast_party")).foldlM skillStep st from
    h []
  induction msgs with
  | nil => intro st; rfl
  | cons m ms ih =>
    intro st
    by_cases hk : m.msgType = some "spell_cast_party"
    · rw [List.filter_cons_of_pos (by simpa using hk), List.foldlM_cons, List.foldlM_cons]
      cases hstep : skillStep st m with
      | error e => rfl
      | ok st' => exact ih st'
    · rw [List.filter_cons_of_neg (by simpa using hk), List.foldlM_cons]
      have hstep : skillStep st m = Except.ok st := by simp [skillStep, hk]
      rw [hstep]
      exact ih st

/-- Claim C7: for a skill event with a present actor, `aggregate_team_skills`
adds the coerced cast count to that actor's total (1 when the `times` field is
absent), leaving other actors untouched; a present but non-numeric cast count
makes the integer coercion raise, which is fatal to the whole call. -/
theorem aggregate_team_skills_spec (msgs : List Msg) (m : Msg) (u : String) (n : ℤ)
    (st : SkillStats)
    (hk : m.msgType = some "spell_cast_party") (hu : m.user = some u) (hne : u ≠ "")
    (hn : timesCoerce m.times = some n)
    (hok : aggregate_team_skills msgs = Except.ok st) :
    (∃ st', aggregate_team_skills (msgs ++ [m]) = Except.ok st' ∧
        lookupSkill st' u = lookupSkill st u + n ∧
        ∀ v, v ≠ u → lookupSkill st' v = lookupSkill st v) ∧
    (m.times = none → n = 1) ∧
    aggregate_team_skills [{ m with times := some IntVal.bad }] = Except.error () := by
  refine ⟨?_, ?_, ?_⟩
  · have hstep : skillStep st m = Except.ok
        ((if st.any (fun e => e.1 = u) then st else st ++ [(u, 0)]).map
          (fun e => if e.1 = u then (e.1, e.2 + n) else e)) := by
      simp [skillStep, hk, hu, hne, hn]
    refine ⟨(if st.any (fun e => e.1 = u) then st else st ++ [(u, 0)]).map
        (fun e => if e.1 = u then (e.1, e.2 + n) else e), ?_, ?_, ?_⟩
    · unfold aggregate_team_skills
      rw [List.foldlM_append]
      unfold aggregate_team_skills at hok
      rw [hok]
      show (skillStep st m >>= fun s => List.foldlM skillStep s []) = _
      rw [hstep]
      rfl
    · rw [lookupSkill_bump_self _ _ _ (skill_any_ensure st u)]
      split
      · rfl
      · rw [lookupSkill_append_new]
    · intro v hv
      rw [lookupSkill_bump_ne _ _ _ _ hv]
      split
      · rfl
      · rw [lookupSkill_append_new]
  · intro habs
    rw [habs] at hn
    simpa [timesCoerce] using hn.symm
  · simp [aggregate_team_skills, skillStep, hk, hu, hne, timesCoerce]

/-- Witness for C7 at a concrete event. -/
theorem aggregate_team_skills_spec_witness :
    (∃ st', aggregate_team_skills
        ([] ++ [⟨some "spell_cast_party", some "alice", none, FieldVal.absent,
          FieldVal.absent, some (IntVal.num 3)⟩]) = Except.ok st' ∧
        lookupSkill st' "alice" = lookupSkill ([] : SkillStats) "alice" + 3 ∧
        ∀ v, v ≠ "alice" → lookupSkill st' v = lookupSkill ([] : SkillStats) v) ∧
    ((⟨some "spell_cast_party", some "alice", none, FieldVal.absent,
        FieldVal.absent, some (IntVal.num 3)⟩ : Msg).times = none → (3 : ℤ) = 1) ∧
    aggregate_team_skills [{ (⟨some "spell_cast_party", some "alice", none, FieldVal.absent,
        FieldVal.absent, some (IntVal.num 3)⟩ : Msg) with times := some IntVal.bad }] =
      Except.error () :=
  aggregate_team_skills_spec [] _ "alice" 3 [] rfl rfl (by decide) rfl rfl

/-- Counterexample to claim C8 as stated: a "boss_damage" event without a
timestamp makes the filter raise (`KeyError` on `msg["timestamp"]`, modelled
by `.error ()`) instead of being excluded without raising. -/
theorem filter_missing_timestamp_cex :
    filter_recent_boss_messages
      [⟨some "boss_damage", some "alice", none, FieldVal.absent, FieldVal.absent, none⟩] 7 0 =
      Except.error () ∧
    ¬∃ res, filter_recent_boss_messages
      [⟨some "boss_damage", some "alice", none, FieldVal.absent, FieldVal.absent, none⟩] 7 0 =
      Except.ok res := by
  constructor
  · rfl
  · rintro ⟨res, hres⟩
    exact Except.noConfusion (hres.symm.trans (rfl : filter_recent_boss_messages
      [⟨some "boss_damage", some "alice", none, FieldVal.absent, FieldVal.absent, none⟩] 7 0 =
      Except.error ()))

/-- Claim C8 (amended): an event lacking a timestamp is excluded without
raising only when its kind is not the filtered kind (the short-circuit `and`
never reads the timestamp); when its kind is "boss_damage" the filter raises,
aborting the whole call. -/
theorem filter_missing_timestamp (chat : List Msg) (m : Msg) (days : ℤ) (now : ℚ)
    (h : m.timestamp = none) :
    (m.msgType ≠ some "boss_damage" →
      filter_recent_boss_messages (m :: chat) days now =
        filter_recent_boss_messages chat days now) ∧
    (m.msgType = some "boss_damage" →
      filter_recent_boss_messages (m :: chat) days now = Except.error ()) := by
  constructor
  · intro hk
    simp [filter_recent_boss_messages, hk]
  · intro hk
    simp [filter_recent_boss_messages, hk, h]

/-- Witness for C8 (amended) at a concrete event. -/
theorem filter_missing_timestamp_witness :
    ((⟨some "chat", some "alice", none, FieldVal.absent, FieldVal.absent, none⟩ : Msg).msgType ≠
        some "boss_damage" →
      filter_recent_boss_messages
        [⟨some "chat", some "alice", none, FieldVal.absent, FieldVal.absent, none⟩] 7 0 =
        filter_recent_boss_messages [] 7 0) ∧
    ((⟨some "chat", some "alice", none, FieldVal.absent, FieldVal.absent, none⟩ : Msg).msgType =
        some "boss_damage" →
      filter_recent_boss_messages
        [⟨some "chat", some "alice", none, FieldVal.absent, FieldVal.absent, none⟩] 7 0 =
        Except.error ()) :=
  filter_missing_timestamp [] _ 7 0 rfl

theorem filter_recent_ok (chat : List Msg) (days : ℤ) (now : ℚ)
    (hts : ∀ m ∈ chat, m.timestamp ≠ none) :
    ∃ res, filter_recent_boss_messages chat days now = Except.ok res ∧
      ∀ x, x ∈ res ↔ x ∈ chat ∧ x.msgType = some "boss_damage" ∧
        ∃ ts, x.timestamp = some ts ∧ (ts : ℚ) / 1000 ≥ now - (days : ℚ) * 86400 := by
  induction chat with
  | nil => exact ⟨[], rfl, by simp⟩
  | cons m ms ih =>
    obtain ⟨res, hres, hiff⟩ := ih (fun x hx => hts x (List.mem_cons_of_mem _ hx))
    by_cases hk : m.msgType = some "boss_damage"
    · cases hts' : m.timestamp with
      | none => exact absurd hts' (hts m (List.mem_cons_self _ _))
      | some ts =>
        by_cases hge : (ts : ℚ) / 1000 ≥ now - (days : ℚ) * 86400
        · refine ⟨m :: res, ?_, ?_⟩
          · simp [filter_recent_boss_messages, hk, hts', hres, hge]
          · intro x
            simp only [List.mem_cons, hiff]
            constructor
            · rintro (rfl | ⟨hx, h2, h3⟩)
              · exact ⟨Or.inl rfl, hk, ts, hts', hge⟩
              · exact ⟨Or.inr hx, h2, h3⟩
            · rintro ⟨rfl | hx, h2, h3⟩
              · exact Or.inl rfl
              · exact Or.inr ⟨hx, h2, h3⟩
        · refine ⟨res, ?_, ?_⟩
          · simp [filter_recent_boss_messages, hk, hts', hres, hge]
          · intro x
            rw [hiff]
            constructor
            · rintro ⟨hx, h2, h3⟩
              exact ⟨List.mem_cons_of_mem _ hx, h2, h3⟩
            · rintro ⟨hx0, h2, ts', hts'', hge'⟩
              rcases List.mem_cons.mp hx0 with rfl | hx
              · rw [hts'] at hts''
                injection hts'' with hts''
                subst hts''
                exact absurd hge' hge
              · exact ⟨hx, h2, ts', hts'', hge'⟩
    · refine ⟨res, ?_, ?_⟩
      · simp [filter_recent_boss_messages, hk, hres]
      · intro x
        rw [hiff]
        constructor
        · rintro ⟨hx, h2, h3⟩
          exact ⟨List.mem_cons_of_mem _ hx, h2, h3⟩
        · rintro ⟨hx0, h2, h3⟩
          rcases List.mem_cons.mp hx0 with rfl | hx
          · exact absurd h2 hk
          · exact ⟨hx, h2, h3⟩

/-- Claim C4: when every event carries a timestamp, the filter succeeds and
selects exactly the events of kind "boss_damage" whose instant
(timestamp / 1000 seconds) is at or after the window start `now - days·86400`;
the boundary timestamp `start · 1000` is included, one millisecond earlier is
excluded, and no upper bound is consulted (the function takes no end bound:
inclusion depends only on the lower comparison). -/
theorem filter_window_spec (chat : List Msg) (days : ℤ) (now : ℚ)
    (hts : ∀ m ∈ chat, m.timestamp ≠ none) :
    ∃ res, filter_recent_boss_messages chat days now = Except.ok res ∧
      (∀ x, x ∈ res ↔ x ∈ chat ∧ x.msgType = some "boss_damage" ∧
        ∃ ts, x.timestamp = some ts ∧ (ts : ℚ) / 1000 ≥ now - (days : ℚ) * 86400) ∧
      (∀ x ts, x ∈ chat → x.msgType = some "boss_damage" → x.timestamp = some ts →
        ((ts : ℚ) = (now - (days : ℚ) * 86400) * 1000 → x ∈ res) ∧
        ((ts : ℚ) = (now - (days : ℚ) * 86400) * 1000 - 1 → x ∉ res)) := by
  obtain ⟨res, hres, hiff⟩ := filter_recent_ok chat days now hts
  refine ⟨res, hres, hiff, ?_⟩
  intro x ts hx hk hts'
  constructor
  · intro heq
    refine (hiff x).2 ⟨hx, hk, ts, hts', ?_⟩
    rw [heq]
    have h1000 : ((now - (days : ℚ) * 86400) * 1000) / 1000 = now - (days : ℚ) * 86400 := by
      ring
    rw [h1000]
  · intro heq hmem
    obtain ⟨-, -, ts', hts'', hge⟩ := (hiff x).1 hmem
    rw [hts'] at hts''
    injection hts'' with hts''
    subst hts''
    rw [heq] at hge
    have h1000 : (((now - (days : ℚ) * 86400) * 1000 - 1)) / 1000 =
        now - (days : ℚ) * 86400 - 1 / 1000 := by
      ring
    rw [h1000] at hge
    linarith

/-- Witness for C4 at a concrete chat containing a boundary event, a
one-millisecond-early event, and an off-kind event. -/
theorem filter_window_spec_witness :
    ∃ res, filter_recent_boss_messages
        [⟨some "boss_damage", some "a", some 0, FieldVal.absent, FieldVal.absent, none⟩,
         ⟨some "boss_damage", some "b", some (-1), FieldVal.absent, FieldVal.absent, none⟩,
         ⟨some "chat", some "c", some 10, FieldVal.absent, FieldVal.absent, none⟩] 0 0 =
        Except.ok res ∧
      (∀ x, x ∈ res ↔ x ∈
          [⟨some "boss_damage", some "a", some 0, FieldVal.absent, FieldVal.absent, none⟩,
           ⟨some "boss_damage", some "b", some (-1), FieldVal.absent, FieldVal.absent, none⟩,
           ⟨some "chat", some "c", some 10, FieldVal.absent, FieldVal.absent, none⟩] ∧
        x.msgType = some "boss_damage" ∧
        ∃ ts, x.timestamp = some ts ∧ (ts : ℚ) / 1000 ≥ 0 - ((0 : ℤ) : ℚ) * 86400) ∧
      (∀ (x : Msg) (ts : ℤ), x ∈
          [⟨some "boss_damage", some "a", some 0, FieldVal.absent, FieldVal.absent, none⟩,
           ⟨some "boss_damage", some "b", some (-1), FieldVal.absent, FieldVal.absent, none⟩,
           ⟨some "chat", some "c", some 10, FieldVal.absent, FieldVal.absent, none⟩] →
        x.msgType = some "boss_damage" → x.timestamp = some ts →
        ((ts : ℚ) = (0 - ((0 : ℤ) : ℚ) * 86400) * 1000 → x ∈ res) ∧
        ((ts : ℚ) = (0 - ((0 : ℤ) : ℚ) * 86400) * 1000 - 1 → x ∉ res)) :=
  filter_window_spec
    [⟨some "boss_damage", some "a", some 0, FieldVal.absent, FieldVal.absent, none⟩,
     ⟨some "boss_damage", some "b", some (-1), FieldVal.absent, FieldVal.absent, none⟩,
     ⟨some "chat", some "c", some 10, FieldVal.absent, FieldVal.absent, none⟩] 0 0 (by decide)

/-- Counterexample to claim C3 as stated: for an event with a non-numeric
`userDamage` and a perfectly numeric `bossDamage` of 5, the claim's general
clause ("a present-but-non-numeric value ... never causes the event's other
field to be skipped") predicts totals (0, 5); the code's shared `try/except`
aborts the event after `float(user_damage)` raises, so the bossDamage
addition is skipped and the totals are (0, 0). -/
theorem damage_malformed_cex :
    lookupStat (aggregate_user_damage
      [⟨some "boss_damage", some "alice", some 0, FieldVal.bad, FieldVal.num 5, none⟩])
      "alice" = (0, 0) ∧
    lookupStat (aggregate_user_damage
      [⟨some "boss_damage", some "alice", some 0, FieldVal.bad, FieldVal.num 5, none⟩])
      "alice" ≠ (0, 5) := by
  have h0 : lookupStat (aggregate_user_damage
      [⟨some "boss_damage", some "alice", some 0, FieldVal.bad, FieldVal.num 5, none⟩])
      "alice" = ((0 : ℚ), (0 : ℚ)) := by
    rw [lookupStat_aggregate]
    simp [damageContrib, tryAddDamage]
  rw [h0]
  refine ⟨rfl, ?_⟩
  intro h
  have h5 : (0 : ℚ) = 5 := congrArg Prod.snd h
  norm_num at h5

/-- Claim C3 (amended): an event with a non-empty actor, numeric `userDamage`
`x` and present non-numeric `bossDamage` adds `x` to the actor's userDamage
total, leaves the bossDamage total unchanged, and keeps the actor's entry;
a non-numeric `bossDamage` is skipped for that field only, but a non-numeric
`userDamage` aborts the event's remaining additions (its `bossDamage` is also
skipped), the actor's entry being created or kept either way.  The aggregator
is a total function: both coercion failures are caught. -/
theorem damage_malformed_isolation (msgs : List Msg) (m : Msg) (u : String) (x : ℚ)
    (hu : m.user = some u) (hne : u ≠ "")
    (hud : m.userDamage = FieldVal.num x) (hbd : m.bossDamage = FieldVal.bad) :
    lookupStat (aggregate_user_damage (msgs ++ [m])) u =
      lookupStat (aggregate_user_damage msgs) u + (x, 0) ∧
    hasKey (aggregate_user_damage (msgs ++ [m])) u = true ∧
    (∀ (m' : Msg) (msgs' : List Msg), m'.user = some u → m'.userDamage = FieldVal.bad →
      lookupStat (aggregate_user_damage (msgs' ++ [m'])) u =
        lookupStat (aggregate_user_damage msgs') u ∧
      hasKey (aggregate_user_damage (msgs' ++ [m'])) u = true) := by
  have hstep : ∀ l : List Msg, aggregate_user_damage (l ++ [m]) =
      damageStep (aggregate_user_damage l) m := by
    intro l
    unfold aggregate_user_damage
    rw [List.foldl_append]
    rfl
  have hkey : ∀ (mm : Msg) (l : List Msg), mm.user = some u → u ≠ "" →
      hasKey (aggregate_user_damage (l ++ [mm])) u = true := by
    intro mm l hmu hmne
    unfold aggregate_user_damage
    rw [List.foldl_append]
    show hasKey (damageStep (List.foldl damageStep [] l) mm) u = true
    rw [damageStep_some _ _ _ hmu hmne, hasKey_addStat]
    exact hasKey_ensureKey _ u
  refine ⟨?_, hkey m msgs hu hne, ?_⟩
  · rw [hstep, lookupStat_damageStep, damageContrib_some m u hu hne, hud, hbd]
    rfl
  · intro m' msgs' hu' hud'
    constructor
    · have hstep' : aggregate_user_damage (msgs' ++ [m']) =
          damageStep (aggregate_user_damage msgs') m' := by
        unfold aggregate_user_damage
        rw [List.foldl_append]
        rfl
      rw [hstep', lookupStat_damageStep, damageContrib_some m' u hu' hne, hud']
      rw [show tryAddDamage FieldVal.bad m'.bossDamage = ((0 : ℚ), (0 : ℚ)) from rfl]
      rw [Prod.mk_zero_zero, add_zero]
    · exact hkey m' msgs' hu' hne

/-- Witness for C3 (amended) at a concrete event. -/
theorem damage_malformed_isolation_witness :
    lookupStat (aggregate_user_damage
      ([] ++ [⟨some "boss_damage", some "alice", some 0, FieldVal.num 7, FieldVal.bad, none⟩]))
      "alice" = lookupStat (aggregate_user_damage []) "alice" + (7, 0) ∧
    hasKey (aggregate_user_damage
      ([] ++ [⟨some "boss_damage", some "alice", some 0, FieldVal.num 7, FieldVal.bad, none⟩]))
      "alice" = true ∧
    (∀ (m' : Msg) (msgs' : List Msg), m'.user = some "alice" → m'.userDamage = FieldVal.bad →
      lookupStat (aggregate_user_damage (msgs' ++ [m'])) "alice" =
        lookupStat (aggregate_user_damage msgs') "alice" ∧
      hasKey (aggregate_user_damage (msgs' ++ [m'])) "alice" = true) :=
  damage_malformed_isolation [] _ "alice" 7 rfl (by decide) rfl rfl

/-- In the exact-arithmetic model, the per-actor totals depend only on the
multiset of events (order-invariance under permutation) and are additive over
concatenation.  This is a property of the idealized rational arithmetic only:
the Python code accumulates IEEE-754 floats with `+=`, and float addition is
neither associative nor order-independent, so no counterpart of this lemma
holds of the program's actual arithmetic. -/
theorem lookupStat_perm_append (l₁ l₂ la lb : List Msg) (u : String)
    (h : l₁.Perm l₂) :
    lookupStat (aggregate_user_damage l₁) u = lookupStat (aggregate_user_damage l₂) u ∧
    lookupStat (aggregate_user_damage (la ++ lb)) u =
      lookupStat (aggregate_user_damage la) u + lookupStat (aggregate_user_damage lb) u := by
  constructor
  · rw [lookupStat_aggregate, lookupStat_aggregate]
    exact (h.map _).sum_eq
  · rw [lookupStat_aggregate, lookupStat_aggregate, lookupStat_aggregate,
      List.map_append, List.sum_append]

theorem keys_addStat (st : DamageStats) (u : String) (c : ℚ × ℚ) :
    (addStat st u c).map Prod.fst = st.map Prod.fst := by
  induction st with
  | nil => rfl
  | cons e es ih =>
    rw [addStat_cons, List.map_cons, List.map_cons, ih]
    congr 1
    split <;> rfl

theorem keys_ensureKey (st : DamageStats) (u : String) :
    (ensureKey st u).map Prod.fst =
      if u ∈ st.map Prod.fst then st.map Prod.fst else st.map Prod.fst ++ [u] := by
  unfold ensureKey
  by_cases h : hasKey st u = true
  · rw [if_pos h, if_pos ((hasKey_iff st u).1 h)]
  · rw [if_neg h, if_neg (fun hm => h ((hasKey_iff st u).2 hm)), List.map_append]
    rfl

theorem keys_foldl (msgs : List Msg) (st : DamageStats) :
    (msgs.foldl damageStep st).map Prod.fst =
      msgs.foldl
        (fun acc m =>
          match m.user with
          | none => acc
          | some u => if u = "" then acc else if u ∈ acc then acc else acc ++ [u])
        (st.map Prod.fst) := by
  induction msgs generalizing st with
  | nil => rfl
  | cons m ms ih =>
    rw [List.foldl_cons, List.foldl_cons, ih]
    congr 1
    cases hm : m.user with
    | none =>
      unfold damageStep
      rw [hm]
    | some u =>
      unfold damageStep
      rw [hm]
      show (if u = "" then st
          else addStat (ensureKey st u) u (tryAddDamage m.userDamage m.bossDamage)).map Prod.fst =
        (if u = "" then st.map Prod.fst
          else if u ∈ st.map Prod.fst then st.map Prod.fst else st.map Prod.fst ++ [u])
      by_cases h : u = ""
      · rw [if_pos h, if_pos h]
      · rw [if_neg h, if_neg h, keys_addStat, keys_ensureKey]

theorem keys_aggregate (msgs : List Msg) :
    (aggregate_user_damage msgs).map Prod.fst = seenActors msgs := by
  unfold aggregate_user_damage seenActors
  exact keys_foldl msgs []

theorem seen_foldl_nodup (msgs : List Msg) (acc : List String) (h : acc.Nodup) :
    (msgs.foldl
      (fun acc m =>
        match m.user with
        | none => acc
        | some u => if u = "" then acc else if u ∈ acc then acc else acc ++ [u])
      acc).Nodup := by
  induction msgs generalizing acc with
  | nil => exact h
  | cons m ms ih =>
    rw [List.foldl_cons]
    apply ih
    cases m.user with
    | none => exact h
    | some u =>
      show (if u = "" then acc else if u ∈ acc then acc else acc ++ [u]).Nodup
      split
      · exact h
      · split
        · exact h
        · rename_i hmem
          simp [List.nodup_append, h, hmem]

theorem seenActors_nodup (msgs : List Msg) : (seenActors msgs).Nodup :=
  seen_foldl_nodup msgs [] List.nodup_nil

theorem assoc_eq_keys_map (st : DamageStats) (h : (st.map Prod.fst).Nodup) :
    st = (st.map Prod.fst).map (fun k => (k, lookupStat st k)) := by
  induction st with
  | nil => rfl
  | cons e es ih =>
    rw [List.map_cons] at h
    obtain ⟨he, h2⟩ := List.nodup_cons.mp h
    rw [List.map_cons, List.map_cons]
    congr 1
    · rw [lookupStat_cons, if_pos rfl]
    · conv_lhs => rw [ih h2]
      apply List.map_congr_left
      intro k hk
      have hne : ¬(e.1 = k) := fun hh => he (hh ▸ hk)
      rw [lookupStat_cons, if_neg hne]

theorem pair_sublist_of_decomp {α : Type} (P Q R : List α) (x y : α) :
    List.Sublist [x, y] (P ++ x :: (Q ++ y :: R)) := by
  induction P with
  | nil =>
    apply List.Sublist.cons₂
    induction Q with
    | nil => exact List.Sublist.cons₂ y (List.nil_sublist R)
    | cons c cs ihq => exact List.Sublist.cons c ihq
  | cons c cs ihp => exact List.Sublist.cons c ihp

theorem cons_sublist_decomp {α : Type} {x : α} {t s : List α}
    (h : List.Sublist (x :: t) s) :
    ∃ s₁ s₂, s = s₁ ++ x :: s₂ ∧ List.Sublist t s₂ := by
  induction s with
  | nil => exact absurd h (by simp)
  | cons c cs ih =>
    cases h with
    | cons a h' =>
      obtain ⟨s₁, s₂, rfl, ht⟩ := ih h'
      exact ⟨c :: s₁, s₂, rfl, ht⟩
    | cons₂ a h' => exact ⟨[], cs, rfl, h'⟩

theorem nodup_middle_unique {α : Type} {e : α} :
    ∀ (u₁ v₁ u₂ v₂ : List α),
      (u₁ ++ e :: u₂).Nodup → u₁ ++ e :: u₂ = v₁ ++ e :: v₂ → u₁.length = v₁.length := by
  intro u₁
  induction u₁ with
  | nil =>
    intro v₁ u₂ v₂ hnd heq
    cases v₁ with
    | nil => rfl
    | cons c cs =>
      rw [List.nil_append, List.cons_append] at heq
      injection heq with h1 h2
      exfalso
      rw [List.nil_append] at hnd
      have hmem : e ∈ u₂ := by
        rw [h2]
        exact List.mem_append_right _ (List.mem_cons_self _ _)
      exact (List.nodup_cons.mp hnd).1 hmem
  | cons c cs ih =>
    intro v₁ u₂ v₂ hnd heq
    cases v₁ with
    | nil =>
      rw [List.nil_append, List.cons_append] at heq
      injection heq with h1 h2
      exfalso
      rw [List.cons_append] at hnd
      have hmem : c ∈ cs ++ e :: u₂ :=
        h1 ▸ List.mem_append_right _ (List.mem_cons_self _ _)
      exact (List.nodup_cons.mp hnd).1 hmem
    | cons d ds =>
      rw [List.cons_append, List.cons_append] at heq
      injection heq with h1 h2
      rw [List.cons_append] at hnd
      rw [List.length_cons, List.length_cons, ih ds u₂ v₂ (List.nodup_cons.mp hnd).2 h2]

theorem take_decomp {α : Type} (s₁ s₂ s₃ : List α) (x y : α) (n : ℕ)
    (h : s₁.length + s₂.length + 2 ≤ n) :
    ((s₁ ++ x :: s₂) ++ y :: s₃).take n =
      s₁ ++ x :: (s₂ ++ y :: s₃.take (n - s₁.length - s₂.length - 2)) := by
  rw [List.take_append_eq_append_take]
  rw [List.take_of_length_le (by simp only [List.length_append, List.length_cons]; omega)]
  have hpos : n - (s₁ ++ x :: s₂).length = (n - s₁.length - s₂.length - 2) + 1 := by
    simp only [List.length_append, List.length_cons]
    omega
  rw [hpos, List.take_succ_cons]
  simp [List.append_assoc]

/-- Stability of a truncated descending ranking, generically in the entry
value type and the sort key: if the entry list decomposes as
`P ++ ea :: (Q ++ eb :: R)` with duplicate-free names, the two distinguished
entries' sort keys are tied, and `eb` appears among the first `n` entries of
the stable descending sort, then `ea` appears before `eb` there. -/
theorem sorted_take_pair_stability {β : Type} (key : String × β → ℚ)
    (st : List (String × β)) (hnd : (st.map Prod.fst).Nodup)
    (P Q R : List (String × β)) (ea eb : String × β)
    (hdec : st = P ++ ea :: (Q ++ eb :: R))
    (htie : key ea = key eb) (n : ℕ)
    (hmem : eb ∈ (pySortedDescBy key st).take n) :
    ∃ l₁ l₂ l₃, (pySortedDescBy key st).take n = l₁ ++ ea :: (l₂ ++ eb :: l₃) := by
  have hpair : List.Sublist [ea, eb] st := by
    rw [hdec]
    exact pair_sublist_of_decomp _ _ _ _ _
  have htrans : ∀ x y z : String × β,
      (fun x y : String × β => decide (key y ≤ key x)) x y = true →
      (fun x y : String × β => decide (key y ≤ key x)) y z = true →
      (fun x y : String × β => decide (key y ≤ key x)) x z = true := by
    intro x y z hxy hyz
    simp only [decide_eq_true_eq] at hxy hyz ⊢
    exact le_trans hyz hxy
  have htotal : ∀ x y : String × β,
      ((fun x y : String × β => decide (key y ≤ key x)) x y ||
       (fun x y : String × β => decide (key y ≤ key x)) y x) = true := by
    intro x y
    simp only [Bool.or_eq_true, decide_eq_true_eq]
    exact le_total _ _
  have hab : (fun x y : String × β => decide (key y ≤ key x)) ea eb = true := by
    simp only [decide_eq_true_eq]
    exact le_of_eq htie.symm
  have hsorted := List.pair_sublist_mergeSort htrans htotal hab hpair
  have htop : (pySortedDescBy key st).take n =
      (st.mergeSort (fun x y : String × β => decide (key y ≤ key x))).take n := rfl
  obtain ⟨s₁, s₂x, hs1, hrest⟩ := cons_sublist_decomp hsorted
  obtain ⟨s₂, s₃, hs2, -⟩ := cons_sublist_decomp hrest
  subst hs2
  have hshape : st.mergeSort (fun x y : String × β => decide (key y ≤ key x)) =
      (s₁ ++ ea :: s₂) ++ eb :: s₃ := by
    rw [hs1]
    simp [List.append_assoc]
  have hperm := List.mergeSort_perm st (fun x y : String × β => decide (key y ≤ key x))
  have hndsorted : (st.mergeSort (fun x y : String × β => decide (key y ≤ key x))).Nodup := by
    have hmap : ((st.mergeSort (fun x y : String × β => decide (key y ≤ key x))).map
        Prod.fst).Nodup :=
      ((hperm.map Prod.fst).nodup_iff).2 hnd
    exact hmap.of_map _
  rw [htop] at hmem
  obtain ⟨j, hj, hjget⟩ := List.mem_iff_getElem.mp hmem
  have hjn : j < n := lt_of_lt_of_le hj (by rw [List.length_take]; exact min_le_left _ _)
  have hjlt : j < (st.mergeSort (fun x y : String × β => decide (key y ≤ key x))).length :=
    lt_of_lt_of_le hj (by rw [List.length_take]; exact min_le_right _ _)
  rw [List.getElem_take] at hjget
  have hsplitj : st.mergeSort (fun x y : String × β => decide (key y ≤ key x)) =
      ((st.mergeSort (fun x y : String × β => decide (key y ≤ key x))).take j) ++
        eb :: ((st.mergeSort (fun x y : String × β => decide (key y ≤ key x))).drop (j + 1)) := by
    conv_lhs => rw [← List.take_append_drop j
      (st.mergeSort (fun x y : String × β => decide (key y ≤ key x)))]
    rw [List.drop_eq_getElem_cons hjlt, hjget]
  have hlen := nodup_middle_unique (s₁ ++ ea :: s₂)
    ((st.mergeSort (fun x y : String × β => decide (key y ≤ key x))).take j)
    s₃
    ((st.mergeSort (fun x y : String × β => decide (key y ≤ key x))).drop (j + 1))
    (by rw [← hshape]; exact hndsorted)
    (hshape.symm.trans hsplitj)
  rw [List.length_take, List.length_append, List.length_cons] at hlen
  have hj2 : s₁.length + s₂.length + 2 ≤ n := by
    have hmin : min j (st.mergeSort (fun x y : String × β => decide (key y ≤ key x))).length = j :=
      min_eq_left (le_of_lt hjlt)
    omega
  refine ⟨s₁, s₂, s₃.take (n - s₁.length - s₂.length - 2), ?_⟩
  rw [htop, hshape]
  exact take_decomp s₁ s₂ s₃ _ _ n hj2

theorem damage_keys_nodup (msgs : List Msg) :
    ((aggregate_user_damage msgs).map Prod.fst).Nodup := by
  rw [keys_aggregate]
  exact seenActors_nodup msgs

/-- The damage stats list decomposes along any split of the first-seen actor
order, each entry carrying its looked-up totals. -/
theorem damage_entry_decomp (msgs : List Msg) (a b : String) (p q r : List String)
    (horder : seenActors msgs = p ++ a :: (q ++ b :: r)) :
    aggregate_user_damage msgs =
      (p.map (fun k => (k, lookupStat (aggregate_user_damage msgs) k))) ++
        (a, lookupStat (aggregate_user_damage msgs) a) ::
        ((q.map (fun k => (k, lookupStat (aggregate_user_damage msgs) k))) ++
          (b, lookupStat (aggregate_user_damage msgs) b) ::
          (r.map (fun k => (k, lookupStat (aggregate_user_damage msgs) k)))) := by
  conv_lhs => rw [assoc_eq_keys_map (aggregate_user_damage msgs) (damage_keys_nodup msgs),
    keys_aggregate msgs, horder]
  simp

theorem skill_any_iff (st : SkillStats) (u : String) :
    (st.any (fun e => e.1 = u)) = true ↔ u ∈ st.map Prod.fst := by
  rw [List.any_eq_true]
  constructor
  · rintro ⟨e, he, hp⟩
    exact List.mem_map.mpr ⟨e, he, by simpa using hp⟩
  · intro hm
    obtain ⟨e, he, hp⟩ := List.mem_map.mp hm
    exact ⟨e, he, by simpa using hp⟩

theorem skill_keys_bump (st : SkillStats) (u : String) (nn : ℤ) :
    (st.map (fun e => if e.1 = u then (e.1, e.2 + nn) else e)).map Prod.fst =
      st.map Prod.fst := by
  induction st with
  | nil => rfl
  | cons e es ih =>
    rw [List.map_cons, List.map_cons, List.map_cons, ih]
    congr 1
    split <;> rfl

/-- One aggregator step changes the skills dict's key list exactly as the
first-seen scan does (whenever the step does not raise). -/
theorem skill_keys_step (st st' : SkillStats) (m : Msg)
    (h : skillStep st m = Except.ok st') :
    st'.map Prod.fst =
      (if m.msgType = some "spell_cast_party" then
        match m.user with
        | none => st.map Prod.fst
        | some u => if u = "" then st.map Prod.fst
            else if u ∈ st.map Prod.fst then st.map Prod.fst else st.map Prod.fst ++ [u]
      else st.map Prod.fst) := by
  unfold skillStep at h
  by_cases hk : m.msgType = some "spell_cast_party"
  · rw [if_pos hk] at h
    rw [if_pos hk]
    cases hu : m.user with
    | none =>
      rw [hu] at h
      have h' : Except.ok st = Except.ok st' := h
      injection h' with h'
      show st'.map Prod.fst = st.map Prod.fst
      rw [← h']
    | some u =>
      rw [hu] at h
      have h' : (if u = "" then Except.ok st
          else
            match timesCoerce m.times with
            | none => Except.error ()
            | some n =>
              let st1 := if st.any (fun e => e.1 = u) then st else st ++ [(u, 0)]
              Except.ok (st1.map (fun e => if e.1 = u then (e.1, e.2 + n) else e))) =
          Except.ok st' := h
      show st'.map Prod.fst =
        (if u = "" then st.map Prod.fst
          else if u ∈ st.map Prod.fst then st.map Prod.fst else st.map Prod.fst ++ [u])
      by_cases hue : u = ""
      · rw [if_pos hue] at h'
        rw [if_pos hue]
        injection h' with h'
        rw [← h']
      · rw [if_neg hue] at h'
        rw [if_neg hue]
        cases ht : timesCoerce m.times with
        | none =>
          rw [ht] at h'
          exact Except.noConfusion h'
        | some nn =>
          rw [ht] at h'
          have h'' : Except.ok ((if st.any (fun e => e.1 = u) then st
              else st ++ [(u, 0)]).map
              (fun e => if e.1 = u then (e.1, e.2 + nn) else e)) = Except.ok st' := h'
          injection h'' with h''
          rw [← h'', skill_keys_bump]
          by_cases ha : (st.any (fun e => e.1 = u)) = true
          · rw [if_pos ha, if_pos ((skill_any_iff st u).1 ha)]
          · rw [if_neg ha, if_neg (fun hm => ha ((skill_any_iff st u).2 hm)),
              List.map_append]
            rfl
  · rw [if_neg hk] at h
    rw [if_neg hk]
    injection h with h
    rw [← h]

theorem skill_keys_foldlM (msgs : List Msg) : ∀ (st0 st' : SkillStats),
    msgs.foldlM skillStep st0 = Except.ok st' →
    st'.map Prod.fst =
      msgs.foldl
        (fun acc m =>
          if m.msgType = some "spell_cast_party" then
            match m.user with
            | none => acc
            | some u => if u = "" then acc else if u ∈ acc then acc else acc ++ [u]
          else acc)
        (st0.map Prod.fst) := by
  induction msgs with
  | nil =>
    intro st0 st' h
    have h' : Except.ok st0 = Except.ok st' := h
    injection h' with h'
    rw [← h']
    rfl
  | cons m ms ih =>
    intro st0 st' h
    rw [List.foldlM_cons] at h
    cases hstep : skillStep st0 m with
    | error e =>
      rw [hstep] at h
      exact Except.noConfusion h
    | ok st1 =>
      rw [hstep] at h
      rw [List.foldl_cons, ← skill_keys_step st0 st1 m hstep]
      exact ih st1 st' h

/-- The skills dict's keys are the casters in first-seen order. -/
theorem keys_skill_aggregate (msgs : List Msg) (st : SkillStats)
    (h : aggregate_team_skills msgs = Except.ok st) :
    st.map Prod.fst = seenSkillActors msgs :=
  skill_keys_foldlM msgs [] st h

theorem seenSkill_foldl_nodup (msgs : List Msg) (acc : List String) (h : acc.Nodup) :
    (msgs.foldl
      (fun acc m =>
        if m.msgType = some "spell_cast_party" then
          match m.user with
          | none => acc
          | some u => if u = "" then acc else if u ∈ acc then acc else acc ++ [u]
        else acc)
      acc).Nodup := by
  induction msgs generalizing acc with
  | nil => exact h
  | cons m ms ih =>
    rw [List.foldl_cons]
    apply ih
    by_cases hk : m.msgType = some "spell_cast_party"
    · rw [if_pos hk]
      cases m.user with
      | none => exact h
      | some u =>
        show (if u = "" then acc else if u ∈ acc then acc else acc ++ [u]).Nodup
        split
        · exact h
        · split
          · exact h
          · rename_i hmem
            simp [List.nodup_append, h, hmem]
    · rw [if_neg hk]
      exact h

theorem seenSkillActors_nodup (msgs : List Msg) : (seenSkillActors msgs).Nodup :=
  seenSkill_foldl_nodup msgs [] List.nodup_nil

theorem skill_keys_nodup (msgs : List Msg) (st : SkillStats)
    (h : aggregate_team_skills msgs = Except.ok st) : (st.map Prod.fst).Nodup := by
  rw [keys_skill_aggregate msgs st h]
  exact seenSkillActors_nodup msgs

theorem skill_assoc_eq_keys_map (st : SkillStats) (h : (st.map Prod.fst).Nodup) :
    st = (st.map Prod.fst).map (fun k => (k, lookupSkill st k)) := by
  induction st with
  | nil => rfl
  | cons e es ih =>
    rw [List.map_cons] at h
    obtain ⟨he, h2⟩ := List.nodup_cons.mp h
    rw [List.map_cons, List.map_cons]
    congr 1
    · rw [lookupSkill_cons, if_pos rfl]
    · conv_lhs => rw [ih h2]
      apply List.map_congr_left
      intro k hk
      have hne : ¬(e.1 = k) := fun hh => he (hh ▸ hk)
      rw [lookupSkill_cons, if_neg hne]

/-- The skills dict decomposes along any split of the first-seen caster
order, each entry carrying its looked-up count. -/
theorem skill_entry_decomp (msgs : List Msg) (st : SkillStats) (a b : String)
    (p q r : List String)
    (hok : aggregate_team_skills msgs = Except.ok st)
    (horder : seenSkillActors msgs = p ++ a :: (q ++ b :: r)) :
    st = (p.map (fun k => (k, lookupSkill st k))) ++
      (a, lookupSkill st a) ::
      ((q.map (fun k => (k, lookupSkill st k))) ++
        (b, lookupSkill st b) :: (r.map (fun k => (k, lookupSkill st k)))) := by
  conv_lhs => rw [skill_assoc_eq_keys_map st (skill_keys_nodup msgs st hok),
    keys_skill_aggregate msgs st hok, horder]
  simp

theorem top_user_damage_eq (stats : DamageStats) (n : ℕ) :
    top_user_damage stats n =
      (pySortedDescBy (fun e : String × ℚ × ℚ => e.2.1) stats).take n := rfl

theorem top_boss_damage_eq (stats : DamageStats) (n : ℕ) :
    top_boss_damage stats n =
      (pySortedDescBy (fun e : String × ℚ × ℚ => e.2.2) stats).take n := rfl

theorem sorted_skills_eq (sk : SkillStats) :
    sorted_skills sk = pySortedDescBy (fun e : String × ℤ => (e.2 : ℚ)) sk := rfl

/-- Claim C5: ranking stability, for every ranked subsection of the rendered
report.  In each of the three rankings (damage dealt, damage taken, skills
cast), if actor `a` was first observed before actor `b` in the subsection's
filtered input event sequence (their order in the corresponding dict's key
insertion order), the two actors' metric values are tied, and `b` appears in
the truncated ranking the renderer maps over, then `a` appears before `b`
there: Python's `sorted` is stable and dict items iterate in first-insertion
order. -/
theorem ranking_stability :
    (∀ (msgs : List Msg) (a b : String) (n : ℕ) (p q r : List String),
      seenActors msgs = p ++ a :: (q ++ b :: r) →
      (lookupStat (aggregate_user_damage msgs) a).1 =
        (lookupStat (aggregate_user_damage msgs) b).1 →
      (b, lookupStat (aggregate_user_damage msgs) b) ∈
        top_user_damage (aggregate_user_damage msgs) n →
      ∃ l₁ l₂ l₃, top_user_damage (aggregate_user_damage msgs) n =
        l₁ ++ (a, lookupStat (aggregate_user_damage msgs) a) ::
          (l₂ ++ (b, lookupStat (aggregate_user_damage msgs) b) :: l₃)) ∧
    (∀ (msgs : List Msg) (a b : String) (n : ℕ) (p q r : List String),
      seenActors msgs = p ++ a :: (q ++ b :: r) →
      (lookupStat (aggregate_user_damage msgs) a).2 =
        (lookupStat (aggregate_user_damage msgs) b).2 →
      (b, lookupStat (aggregate_user_damage msgs) b) ∈
        top_boss_damage (aggregate_user_damage msgs) n →
      ∃ l₁ l₂ l₃, top_boss_damage (aggregate_user_damage msgs) n =
        l₁ ++ (a, lookupStat (aggregate_user_damage msgs) a) ::
          (l₂ ++ (b, lookupStat (aggregate_user_damage msgs) b) :: l₃)) ∧
    (∀ (msgs : List Msg) (st : SkillStats) (a b : String) (n : ℕ) (p q r : List String),
      aggregate_team_skills msgs = Except.ok st →
      seenSkillActors msgs = p ++ a :: (q ++ b :: r) →
      lookupSkill st a = lookupSkill st b →
      (b, lookupSkill st b) ∈ (sorted_skills st).take n →
      ∃ l₁ l₂ l₃, (sorted_skills st).take n =
        l₁ ++ (a, lookupSkill st a) :: (l₂ ++ (b, lookupSkill st b) :: l₃)) := by
  refine ⟨?_, ?_, ?_⟩
  · intro msgs a b n p q r horder htie hmem
    rw [top_user_damage_eq] at hmem ⊢
    exact sorted_take_pair_stability (fun e : String × ℚ × ℚ => e.2.1)
      (aggregate_user_damage msgs) (damage_keys_nodup msgs) _ _ _ _ _
      (damage_entry_decomp msgs a b p q r horder) htie n hmem
  · intro msgs a b n p q r horder htie hmem
    rw [top_boss_damage_eq] at hmem ⊢
    exact sorted_take_pair_stability (fun e : String × ℚ × ℚ => e.2.2)
      (aggregate_user_damage msgs) (damage_keys_nodup msgs) _ _ _ _ _
      (damage_entry_decomp msgs a b p q r horder) htie n hmem
  · intro msgs st a b n p q r hok horder htie hmem
    rw [sorted_skills_eq] at hmem ⊢
    exact sorted_take_pair_stability (fun e : String × ℤ => (e.2 : ℚ)) st
      (skill_keys_nodup msgs st hok) _ _ _ _ _
      (skill_entry_decomp msgs st a b p q r hok horder)
      (congrArg (fun z : ℤ => (z : ℚ)) htie) n hmem

/-- Witness for C5 at concrete tied pairs of actors, one per ranked
subsection. -/
theorem ranking_stability_witness :
    (∃ l₁ l₂ l₃, top_user_damage (aggregate_user_damage
      [⟨some "boss_damage", some "a", some 0, FieldVal.num 10, FieldVal.absent, none⟩,
       ⟨some "boss_damage", some "b", some 0, FieldVal.num 10, FieldVal.absent, none⟩]) 5 =
      l₁ ++ ("a", lookupStat (aggregate_user_damage
        [⟨some "boss_damage", some "a", some 0, FieldVal.num 10, FieldVal.absent, none⟩,
         ⟨some "boss_damage", some "b", some 0, FieldVal.num 10, FieldVal.absent, none⟩]) "a") ::
        (l₂ ++ ("b", lookupStat (aggregate_user_damage
          [⟨some "boss_damage", some "a", some 0, FieldVal.num 10, FieldVal.absent, none⟩,
           ⟨some "boss_damage", some "b", some 0, FieldVal.num 10, FieldVal.absent, none⟩]) "b") ::
          l₃)) ∧
    (∃ l₁ l₂ l₃, top_boss_damage (aggregate_user_damage
      [⟨some "boss_damage", some "a", some 0, FieldVal.num 10, FieldVal.absent, none⟩,
       ⟨some "boss_damage", some "b", some 0, FieldVal.num 10, FieldVal.absent, none⟩]) 5 =
      l₁ ++ ("a", lookupStat (aggregate_user_damage
        [⟨some "boss_damage", some "a", some 0, FieldVal.num 10, FieldVal.absent, none⟩,
         ⟨some "boss_damage", some "b", some 0, FieldVal.num 10, FieldVal.absent, none⟩]) "a") ::
        (l₂ ++ ("b", lookupStat (aggregate_user_damage
          [⟨some "boss_damage", some "a", some 0, FieldVal.num 10, FieldVal.absent, none⟩,
           ⟨some "boss_damage", some "b", some 0, FieldVal.num 10, FieldVal.absent, none⟩]) "b") ::
          l₃)) ∧
    (∃ l₁ l₂ l₃, (sorted_skills [(("a" : String), (1 : ℤ)), ("b", 1)]).take 5 =
      l₁ ++ ("a", lookupSkill [(("a" : String), (1 : ℤ)), ("b", 1)] "a") ::
        (l₂ ++ ("b", lookupSkill [(("a" : String), (1 : ℤ)), ("b", 1)] "b") :: l₃)) := by
  have hagg : aggregate_user_damage
      [⟨some "boss_damage", some "a", some 0, FieldVal.num 10, FieldVal.absent, none⟩,
       ⟨some "boss_damage", some "b", some 0, FieldVal.num 10, FieldVal.absent, none⟩] =
      [("a", 10, 0), ("b", 10, 0)] := by
    have e1 : ¬("a" : String) = "" := by decide
    have e2 : ¬("b" : String) = "" := by decide
    have e3 : ¬("b" : String) = "a" := by decide
    have e4 : ¬("a" : String) = "b" := by decide
    norm_num [aggregate_user_damage, damageStep, ensureKey, hasKey, addStat, tryAddDamage,
      e1, e2, e3, e4]
  refine ⟨?_, ?_, ?_⟩
  · refine ranking_stability.1 _ "a" "b" 5 [] [] [] rfl ?_ ?_
    · rw [hagg]
      norm_num [lookupStat_cons]
    · rw [hagg]
      have hb : lookupStat [(("a" : String), (10 : ℚ), (0 : ℚ)), ("b", 10, 0)] "b" =
          (10, 0) := by
        norm_num [lookupStat_cons]
      rw [hb]
      norm_num [top_user_damage, pySortedDescBy, List.mergeSort, List.splitInTwo,
        List.splitAt_eq, List.merge]
  · refine ranking_stability.2.1 _ "a" "b" 5 [] [] [] rfl ?_ ?_
    · rw [hagg]
      norm_num [lookupStat_cons]
    · rw [hagg]
      have hb : lookupStat [(("a" : String), (10 : ℚ), (0 : ℚ)), ("b", 10, 0)] "b" =
          (10, 0) := by
        norm_num [lookupStat_cons]
      rw [hb]
      norm_num [top_boss_damage, pySortedDescBy, List.mergeSort, List.splitInTwo,
        List.splitAt_eq, List.merge]
  · refine ranking_stability.2.2
      [⟨some "spell_cast_party", some "a", some 0, FieldVal.absent, FieldVal.absent, none⟩,
       ⟨some "spell_cast_party", some "b", some 0, FieldVal.absent, FieldVal.absent, none⟩]
      [(("a" : String), (1 : ℤ)), ("b", 1)] "a" "b" 5 [] [] [] rfl rfl (by decide) ?_
    have hb : lookupSkill [(("a" : String), (1 : ℤ)), ("b", 1)] "b" = 1 := by decide
    rw [hb]
    norm_num [sorted_skills, pySortedDescBy, List.mergeSort, List.splitInTwo,
      List.splitAt_eq, List.merge]

theorem isPrefixOf_iff_take (p l : List Char) :
    p.isPrefixOf l = true ↔ p = l.take p.length := by
  rw [List.isPrefixOf_iff_prefix, List.prefix_iff_eq_take]

theorem isPrefixOf_append_indep (p x y z : List Char) (h : p.length ≤ x.length) :
    p.isPrefixOf (x ++ y) = p.isPrefixOf (x ++ z) := by
  rw [Bool.eq_iff_iff, isPrefixOf_iff_take, isPrefixOf_iff_take,
    List.take_append_of_le_length h, List.take_append_of_le_length h]

theorem cross_nl_char (p x w : List Char)
    (hx : x.length < p.length) (hp : p.isPrefixOf (x ++ '\n' :: w) = true) :
    p[x.length]? = some '\n' := by
  rw [isPrefixOf_iff_take] at hp
  rw [hp, List.getElem?_take_of_lt hx, List.getElem?_append_right (le_refl _)]
  simp

theorem header_cross_false (x w : List Char) (hx : x.length < headerL.length) :
    headerL.isPrefixOf (x ++ '\n' :: w) = false := by
  by_contra h
  have hp : headerL.isPrefixOf (x ++ '\n' :: w) = true := by
    cases hb : headerL.isPrefixOf (x ++ '\n' :: w)
    · exact absurd hb h
    · rfl
  have hmem : '\n' ∈ headerL := List.getElem?_mem (cross_nl_char _ _ _ hx hp)
  exact absurd hmem (by decide)

theorem sep_cross_false (x w : List Char) (hne : x ≠ []) (hx : x.length < sepL.length) :
    sepL.isPrefixOf (x ++ '\n' :: w) = false := by
  by_contra h
  have hp : sepL.isPrefixOf (x ++ '\n' :: w) = true := by
    cases hb : sepL.isPrefixOf (x ++ '\n' :: w)
    · exact absurd hb h
    · rfl
  have hchar := cross_nl_char _ _ _ hx hp
  have h1 : 1 ≤ x.length := by
    cases x with
    | nil => exact absurd rfl hne
    | cons c cs => simp
  have h4 : x.length < 4 := by simpa [sepL] using hx
  interval_cases hxl : x.length <;> simp_all [sepL]

theorem scanNoHeader_of (d w : List Char) (hd : containsHeader d = false)
    (hw : w = [] ∨ ∃ t, w = '\n' :: t) :
    scanNoHeader d w = true := by
  induction d with
  | nil => rfl
  | cons c cs ih =>
    rw [containsHeader, Bool.or_eq_false_iff] at hd
    rw [scanNoHeader, Bool.and_eq_true]
    refine ⟨?_, ih hd.2⟩
    rw [Bool.not_eq_true']
    by_cases hlen : headerL.length ≤ (c :: cs).length
    · rw [show c :: cs ++ w = (c :: cs) ++ w from rfl,
        isPrefixOf_append_indep headerL (c :: cs) w [] hlen, List.append_nil]
      exact hd.1
    · rcases hw with rfl | ⟨t, rfl⟩
      · rw [List.append_nil]
        exact hd.1
      · exact header_cross_false (c :: cs) t (by omega)

theorem scanNoHeader_header_indep (pre r₁ r₂ : List Char) :
    scanNoHeader pre (headerL ++ r₁) = scanNoHeader pre (headerL ++ r₂) := by
  induction pre with
  | nil => rfl
  | cons c cs ih =>
    rw [scanNoHeader, scanNoHeader, ih]
    have hind := isPrefixOf_append_indep headerL ((c :: cs) ++ headerL) r₁ r₂
      (by simp [headerL])
    rw [List.append_assoc, List.append_assoc] at hind
    rw [show c :: cs ++ (headerL ++ r₁) = (c :: cs) ++ (headerL ++ r₁) from rfl,
      show c :: cs ++ (headerL ++ r₂) = (c :: cs) ++ (headerL ++ r₂) from rfl, hind]

theorem dropToSep_of_hasSep_false (l : List Char) (h : hasSep l = false) :
    dropToSep l = [] := by
  induction l with
  | nil => rfl
  | cons c cs ih =>
    rw [hasSep, Bool.or_eq_false_iff] at h
    rw [dropToSep, if_neg (by rw [h.1]; exact fun hh => Bool.noConfusion hh)]
    exact ih h.2

theorem dropToSep_append (l w : List Char) (hl : hasSep l = false)
    (hw : w = [] ∨ ∃ t, w = '\n' :: t) :
    dropToSep (l ++ w) = dropToSep w := by
  induction l with
  | nil => rfl
  | cons c cs ih =>
    rw [hasSep, Bool.or_eq_false_iff] at hl
    rw [List.cons_append, dropToSep]
    have hsep : isSep (c :: (cs ++ w)) = false := by
      unfold isSep at hl ⊢
      by_cases hlen : sepL.length ≤ (c :: cs).length
      · rw [show c :: (cs ++ w) = (c :: cs) ++ w from rfl,
          isPrefixOf_append_indep sepL (c :: cs) w [] hlen, List.append_nil]
        exact hl.1
      · rcases hw with rfl | ⟨t, rfl⟩
        · rw [show c :: (cs ++ []) = (c :: cs) ++ [] from rfl, List.append_nil]
          exact hl.1
        · exact sep_cross_false (c :: cs) t (by simp) (by omega)
    rw [if_neg (by rw [hsep]; exact fun hh => Bool.noConfusion hh)]
    exact ih hl.2

theorem dropToSep_length_le (l : List Char) : (dropToSep l).length ≤ l.length := by
  induction l with
  | nil => exact le_refl _
  | cons c cs ih =>
    rw [dropToSep]
    split
    · exact le_refl _
    · exact Nat.le_succ_of_le ih

theorem replaceAllGo_fuel_eq (S : List Char) :
    ∀ (f₁ : ℕ) (f₂ : ℕ) (l : List Char), l.length ≤ f₁ → l.length ≤ f₂ →
      replaceAllGo S f₁ l = replaceAllGo S f₂ l := by
  intro f₁
  induction f₁ with
  | zero =>
    intro f₂ l h₁ h₂
    cases l with
    | nil =>
      cases f₂ <;> rfl
    | cons c cs => simp at h₁
  | succ g₁ ih =>
    intro f₂ l h₁ h₂
    cases l with
    | nil => cases f₂ <;> rfl
    | cons c cs =>
      cases f₂ with
      | zero => simp at h₂
      | succ g₂ =>
        rw [replaceAllGo, replaceAllGo]
        have hlen : (dropToSep (List.drop headerL.length (c :: cs))).length ≤ cs.length := by
          calc (dropToSep (List.drop headerL.length (c :: cs))).length
              ≤ (List.drop headerL.length (c :: cs)).length := dropToSep_length_le _
            _ ≤ cs.length := by simp [headerL]
        have hcs₁ : cs.length ≤ g₁ := by simpa using h₁
        have hcs₂ : cs.length ≤ g₂ := by simpa using h₂
        split
        · rw [ih g₂ _ (le_trans hlen hcs₁) (le_trans hlen hcs₂)]
        · rw [ih g₂ cs hcs₁ hcs₂]

theorem replaceAll_nil (S : List Char) : replaceAll S [] = [] := rfl

theorem replaceAll_cons (S : List Char) (c : Char) (cs : List Char) :
    replaceAll S (c :: cs) =
      if headerL.isPrefixOf (c :: cs) then
        S ++ replaceAll S (dropToSep (List.drop headerL.length (c :: cs)))
      else c :: replaceAll S cs := by
  show replaceAllGo S (cs.length + 1) (c :: cs) = _
  rw [replaceAllGo]
  have hlen : (dropToSep (List.drop headerL.length (c :: cs))).length ≤ cs.length := by
    calc (dropToSep (List.drop headerL.length (c :: cs))).length
        ≤ (List.drop headerL.length (c :: cs)).length := dropToSep_length_le _
      _ ≤ cs.length := by simp [headerL]
  split
  · rw [replaceAllGo_fuel_eq S cs.length
      (dropToSep (List.drop headerL.length (c :: cs))).length _ hlen (le_refl _)]
    rfl
  · rfl

theorem replaceAll_no_match (S d : List Char) (hd : containsHeader d = false) :
    replaceAll S d = d := by
  induction d with
  | nil => exact replaceAll_nil S
  | cons c cs ih =>
    rw [containsHeader, Bool.or_eq_false_iff] at hd
    rw [replaceAll_cons, if_neg (by rw [hd.1]; exact Bool.false_ne_true)]
    rw [ih hd.2]

theorem replaceAll_append (S t rest : List Char) (h : scanNoHeader t rest = true) :
    replaceAll S (t ++ rest) = t ++ replaceAll S rest := by
  induction t with
  | nil => simp only [List.nil_append]
  | cons c cs ih =>
    rw [scanNoHeader, Bool.and_eq_true, Bool.not_eq_true'] at h
    rw [List.cons_append, replaceAll_cons, if_neg (by
      rw [show c :: (cs ++ rest) = c :: cs ++ rest from rfl, h.1]; exact Bool.false_ne_true)]
    simp [ih h.2]

theorem replaceAll_at_header (S tail : List Char) :
    replaceAll S (headerL ++ tail) = S ++ replaceAll S (dropToSep tail) := by
  have hshape : headerL ++ tail = '#' :: ('#' :: ' ' :: '🏆' :: ' ' :: 'P' :: 'o' :: 'd' ::
      'i' :: 'u' :: 'm' :: tail) := rfl
  rw [hshape, replaceAll_cons, ← hshape,
    if_pos (List.isPrefixOf_iff_prefix.mpr (List.prefix_append _ _))]
  rw [show List.drop headerL.length (headerL ++ tail) = tail from List.drop_left headerL tail]

theorem dropWhile_head_not (p : Char → Bool) (l : List Char) (c : Char) (rest : List Char)
    (h : List.dropWhile p l = c :: rest) : p c = false := by
  induction l with
  | nil => exact absurd h (by simp)
  | cons d ds ih =>
    rw [List.dropWhile_cons] at h
    split at h
    · exact ih h
    · rename_i hd
      injection h with h1 h2
      subst h1
      cases hpd : p d with
      | false => rfl
      | true => exact absurd hpd hd

theorem dropWhile_idem (p : Char → Bool) (l : List Char) :
    List.dropWhile p (List.dropWhile p l) = List.dropWhile p l := by
  cases h : List.dropWhile p l with
  | nil => rfl
  | cons c rest =>
    rw [List.dropWhile_cons,
      if_neg (by rw [dropWhile_head_not p l c rest h]; exact Bool.false_ne_true)]

theorem rstrip_rstrip (l : List Char) : rstrip (rstrip l) = rstrip l := by
  unfold rstrip
  rw [List.reverse_reverse, dropWhile_idem]

theorem rstrip_pstrip (l : List Char) : rstrip (pstrip l) = pstrip l := by
  unfold pstrip
  exact rstrip_rstrip _

theorem rstrip_prefix_decomp (l : List Char) : ∃ t, rstrip l ++ t = l := by
  have hsuf : List.IsSuffix (List.dropWhile pyWS l.reverse) l.reverse :=
    List.dropWhile_suffix pyWS
  obtain ⟨s, hs⟩ := hsuf
  refine ⟨s.reverse, ?_⟩
  unfold rstrip
  rw [← List.reverse_append, hs, List.reverse_reverse]

theorem pstrip_head_not (l : List Char) (c : Char) (rest : List Char)
    (h : pstrip l = c :: rest) : pyWS c = false := by
  obtain ⟨t, ht⟩ := rstrip_prefix_decomp (lstrip l)
  have ht' : pstrip l ++ t = lstrip l := ht
  rw [h] at ht'
  exact dropWhile_head_not pyWS l c (rest ++ t) (by
    rw [show c :: (rest ++ t) = (c :: rest) ++ t from rfl]
    exact ht'.symm)

theorem pstrip_getLast_not (l : List Char) (c : Char)
    (h : (pstrip l).getLast? = some c) : pyWS c = false := by
  unfold pstrip rstrip at h
  rw [List.getLast?_reverse] at h
  obtain ⟨ys, hys⟩ := List.head?_eq_some_iff.mp h
  exact dropWhile_head_not pyWS _ c ys hys

theorem rstrip_eq_self (l : List Char) (c : Char) (h : l.getLast? = some c)
    (hc : pyWS c = false) : rstrip l = l := by
  unfold rstrip
  have hh : l.reverse.head? = some c := by rw [List.head?_reverse]; exact h
  obtain ⟨ys, hys⟩ := List.head?_eq_some_iff.mp hh
  rw [hys, List.dropWhile_cons, if_neg (by rw [hc]; exact Bool.false_ne_true), ← hys,
    List.reverse_reverse]

theorem lstrip_eq_self (c : Char) (rest : List Char) (hc : pyWS c = false) :
    lstrip (c :: rest) = c :: rest := by
  unfold lstrip
  rw [List.dropWhile_cons, if_neg (by rw [hc]; exact Bool.false_ne_true)]

theorem rstrip_append_nl (X : List Char) (c : Char) (h : X.getLast? = some c)
    (hc : pyWS c = false) : rstrip (X ++ [ '\n' ]) = X := by
  unfold rstrip
  rw [List.reverse_append]
  rw [show ([ '\n' ] : List Char).reverse ++ X.reverse = '\n' :: X.reverse from rfl]
  rw [List.dropWhile_cons, if_pos (by decide)]
  have hh : X.reverse.head? = some c := by rw [List.head?_reverse]; exact h
  obtain ⟨ys, hys⟩ := List.head?_eq_some_iff.mp hh
  rw [hys, List.dropWhile_cons, if_neg (by rw [hc]; exact Bool.false_ne_true), ← hys,
    List.reverse_reverse]

theorem containsHeader_of_isPrefixOf (l : List Char) (h : headerL.isPrefixOf l = true) :
    containsHeader l = true := by
  cases l with
  | nil => exact absurd h (by decide)
  | cons c cs => rw [containsHeader, h, Bool.true_or]

theorem containsHeader_append_left (x r : List Char) (h : containsHeader r = true) :
    containsHeader (x ++ r) = true := by
  induction x with
  | nil => exact h
  | cons c cs ih =>
    rw [List.cons_append, containsHeader,
      show c :: (cs ++ r) = c :: cs ++ r from rfl] at *
    rw [ih, Bool.or_true]

theorem containsHeader_append_header (x tail : List Char) :
    containsHeader ((x ++ headerL) ++ tail) = true := by
  rw [List.append_assoc]
  exact containsHeader_append_left x _ (containsHeader_of_isPrefixOf _
    (List.isPrefixOf_iff_prefix.mpr (List.prefix_append _ _)))

theorem hasBS_append (x y : List Char) : hasBS (x ++ y) = (hasBS x || hasBS y) := by
  induction x with
  | nil => rfl
  | cons c cs ih => rw [List.cons_append, hasBS, hasBS, ih, Bool.or_assoc]

theorem expandTemplate_lits (t m : List Char) :
    expandTemplate (t.map (fun c => TemplChunk.lit [c])) m = t := by
  induction t with
  | nil => rfl
  | cons c cs ih => rw [List.map_cons, expandTemplate, ih, List.singleton_append]

/-- A backslash-free replacement compiles to its own characters as literal
chunks (no escape is ever parsed). -/
theorem parseTemplateGo_no_bs : ∀ (fuel : ℕ) (t : List Char), t.length ≤ fuel →
    hasBS t = false →
    parseTemplateGo fuel t = some (t.map (fun c => TemplChunk.lit [c])) := by
  intro fuel
  induction fuel with
  | zero =>
    intro t h1 h2
    cases t with
    | nil => rfl
    | cons c cs => simp at h1
  | succ g ih =>
    intro t h1 h2
    cases t with
    | nil => rfl
    | cons c cs =>
      rw [hasBS, Bool.or_eq_false_iff] at h2
      rw [parseTemplateGo, if_neg (of_decide_eq_false h2.1),
        ih cs (by simpa using h1) h2.2, List.map_cons]

theorem parseTemplate_no_bs (t : List Char) (h : hasBS t = false) :
    parseTemplate t = some (t.map (fun c => TemplChunk.lit [c])) :=
  parseTemplateGo_no_bs t.length t (le_refl _) h

/-- Substituting with a compiled backslash-free replacement inserts it
verbatim at every match: the template and constant forms of the substitution
agree. -/
theorem reSubGo_lits (t : List Char) : ∀ (fuel : ℕ) (l : List Char),
    reSubGo (t.map (fun c => TemplChunk.lit [c])) fuel l = replaceAllGo t fuel l := by
  intro fuel
  induction fuel with
  | zero => intro l; cases l <;> rfl
  | succ g ih =>
    intro l
    cases l with
    | nil => rfl
    | cons c cs =>
      rw [reSubGo, replaceAllGo]
      by_cases hp : headerL.isPrefixOf (c :: cs) = true
      · rw [if_pos hp, if_pos hp, ih, expandTemplate_lits]
      · rw [if_neg hp, if_neg hp, ih]

theorem reSub_lits (t l : List Char) :
    reSub (t.map (fun c => TemplChunk.lit [c])) l = replaceAll t l :=
  reSubGo_lits t l.length l

theorem newPodiumSection_no_bs (B : List Char) (h : hasBS (pstrip B) = false) :
    hasBS (newPodiumSection B) = false := by
  unfold newPodiumSection
  rw [hasBS_append, hasBS_append, hasBS, hasBS, h]
  decide

theorem replace_podium_section_eq (description podium_md : List Char) :
    replace_podium_section description podium_md =
      if containsHeader (pstrip description) then
        match parseTemplate (newPodiumSection podium_md) with
        | none => Except.error ()
        | some chunks => Except.ok (reSub chunks (pstrip description))
      else
        Except.ok (rstrip (pstrip description) ++
          '\n' :: '\n' :: (newPodiumSection podium_md ++ [ '\n' ])) :=
  rfl

/-- The replace path of the merge, characterized: for a backslash-free body
(so the rebuilt section compiles to itself as a template) and a trimmed
document of the form `pre ++ header ++ tail` whose single span starts at the
header occurrence (no occurrence starts inside `pre`, none in the text from
the next top-level header on), the merge keeps `pre` and the text from the
next top-level header (`dropToSep tail`) byte-for-byte and replaces only the
span. -/
theorem merge_replace_path (D B pre tail : List Char)
    (hbs : hasBS (pstrip B) = false)
    (hd : pstrip D = (pre ++ headerL) ++ tail)
    (hpre : scanNoHeader pre (headerL ++ tail) = true)
    (htail : containsHeader (dropToSep tail) = false) :
    replace_podium_section D B =
      Except.ok (pre ++ newPodiumSection B ++ dropToSep tail) := by
  rw [replace_podium_section_eq, hd, if_pos (containsHeader_append_header pre tail),
    parseTemplate_no_bs _ (newPodiumSection_no_bs B hbs)]
  show Except.ok (reSub ((newPodiumSection B).map (fun c => TemplChunk.lit [c]))
      ((pre ++ headerL) ++ tail)) =
    Except.ok (pre ++ newPodiumSection B ++ dropToSep tail)
  rw [reSub_lits, List.append_assoc,
    replaceAll_append _ pre (headerL ++ tail) hpre, replaceAll_at_header,
    replaceAll_no_match _ _ htail, List.append_assoc]

theorem hh_cross_false (x w : List Char) (hx : x.length < 3) :
    ([ '#', '#', ' ' ] : List Char).isPrefixOf (x ++ '\n' :: w) = false := by
  by_contra h
  have hp : ([ '#', '#', ' ' ] : List Char).isPrefixOf (x ++ '\n' :: w) = true := by
    cases hb : ([ '#', '#', ' ' ] : List Char).isPrefixOf (x ++ '\n' :: w)
    · exact absurd hb h
    · rfl
  have hmem : '\n' ∈ ([ '#', '#', ' ' ] : List Char) :=
    List.getElem?_mem (cross_nl_char _ _ _ (by simpa using hx) hp)
  exact absurd hmem (by decide)

theorem hh_not_prefix_append (x z : List Char)
    (h : ([ '#', '#', ' ' ] : List Char).isPrefixOf x = false)
    (hz : z = [] ∨ ∃ w, z = '\n' :: w) :
    ([ '#', '#', ' ' ] : List Char).isPrefixOf (x ++ z) = false := by
  by_cases hlen : ([ '#', '#', ' ' ] : List Char).length ≤ x.length
  · rw [isPrefixOf_append_indep _ x z [] hlen, List.append_nil]
    exact h
  · rcases hz with rfl | ⟨w, rfl⟩
    · rw [List.append_nil]
      exact h
    · exact hh_cross_false x w (by simpa using hlen)

theorem isSep_nl_nl (r : List Char) : isSep ('\n' :: '\n' :: r) = false := by
  simp [isSep, sepL, List.isPrefixOf]

theorem isSep_nl (r : List Char) :
    isSep ('\n' :: r) = ([ '#', '#', ' ' ] : List Char).isPrefixOf r := by
  simp [isSep, sepL, List.isPrefixOf]

theorem isSep_sep (r : List Char) : isSep ('\n' :: '#' :: '#' :: ' ' :: r) = true := by
  simp [isSep, sepL, List.isPrefixOf]

theorem headerL_not_prefixOf_nl (r : List Char) :
    headerL.isPrefixOf ('\n' :: r) = false := by
  simp [headerL, List.isPrefixOf]

theorem dropToSep_shape (l : List Char) :
    dropToSep l = [] ∨ ∃ t, dropToSep l = '\n' :: '#' :: '#' :: ' ' :: t := by
  induction l with
  | nil => exact Or.inl rfl
  | cons c cs ih =>
    rw [dropToSep]
    split
    · rename_i hsep
      right
      unfold isSep sepL at hsep
      rw [isPrefixOf_iff_take] at hsep
      refine ⟨(c :: cs).drop 4, ?_⟩
      have h4 : ([ '\n', '#', '#', ' ' ] : List Char) = List.take 4 (c :: cs) := hsep
      rw [show ('\n' :: '#' :: '#' :: ' ' :: List.drop 4 (c :: cs)) =
        ([ '\n', '#', '#', ' ' ] : List Char) ++ List.drop 4 (c :: cs) from rfl, h4,
        List.take_append_drop]
    · exact ih

theorem dropToSep_decomp (l : List Char) : ∃ t₀, t₀ ++ dropToSep l = l := by
  induction l with
  | nil => exact ⟨[], rfl⟩
  | cons c cs ih =>
    rw [dropToSep]
    split
    · exact ⟨[], rfl⟩
    · obtain ⟨t₀, ht⟩ := ih
      exact ⟨c :: t₀, by rw [List.cons_append, ht]⟩

theorem scanNoHeader_append_iff (x y r : List Char) :
    scanNoHeader (x ++ y) r = (scanNoHeader x (y ++ r) && scanNoHeader y r) := by
  induction x with
  | nil => simp [scanNoHeader]
  | cons c cs ih =>
    rw [List.cons_append, scanNoHeader, scanNoHeader, ih]
    have harg : c :: (cs ++ y) ++ r = c :: cs ++ (y ++ r) := by simp
    rw [harg, Bool.and_assoc]

theorem rstrip_append_ws (X w : List Char) (c : Char) (h : X.getLast? = some c)
    (hc : pyWS c = false) (hw : ∀ a ∈ w, pyWS a = true) : rstrip (X ++ w) = X := by
  unfold rstrip
  rw [List.reverse_append,
    List.dropWhile_append_of_pos (fun a ha => hw a (List.mem_reverse.mp ha))]
  have hh : X.reverse.head? = some c := by rw [List.head?_reverse]; exact h
  obtain ⟨ys, hys⟩ := List.head?_eq_some_iff.mp hh
  rw [hys, List.dropWhile_cons, if_neg (by rw [hc]; exact Bool.false_ne_true), ← hys,
    List.reverse_reverse]

/-- The append path of the merge, characterized: plain concatenation, never
an error (this path does no template processing). -/
theorem merge_append_path (D B : List Char) (hd : containsHeader (pstrip D) = false) :
    replace_podium_section D B =
      Except.ok (rstrip (pstrip D) ++ '\n' :: '\n' :: (newPodiumSection B ++ [ '\n' ])) := by
  rw [replace_podium_section_eq, if_neg (by rw [hd]; exact Bool.false_ne_true)]

/-- The template escapes are live behaviour, not a modelling artifact: a body
containing the two characters backslash-d makes the replace path raise
`re.error` (bad escape), because `re.sub` compiles the rebuilt section as its
replacement template. -/
theorem merge_bad_escape_raises :
    replace_podium_section "## 🏆 Podium\nold".data "\\d".data = Except.error () := rfl

/-- A group reference in the body is expanded to the matched span on the
replace path rather than kept verbatim. -/
theorem merge_group_reference_expands :
    replace_podium_section "## 🏆 Podium\nold".data "\\g<0>".data =
      Except.ok ("## 🏆 Podium\n\n## 🏆 Podium\nold\n".data) := rfl

theorem dropToSep_nl_nl_body (b : List Char)
    (hbhh : ([ '#', '#', ' ' ] : List Char).isPrefixOf b = false)
    (hbsep : hasSep b = false) :
    dropToSep ('\n' :: '\n' :: b) = [] := by
  rw [dropToSep, if_neg (by rw [isSep_nl_nl]; exact Bool.false_ne_true)]
  rw [dropToSep, if_neg (by rw [isSep_nl, hbhh]; exact Bool.false_ne_true)]
  exact dropToSep_of_hasSep_false b hbsep

theorem dropToSep_rebuilt_section (b t₂ : List Char)
    (hbhh : ([ '#', '#', ' ' ] : List Char).isPrefixOf b = false)
    (hbsep : hasSep b = false) :
    dropToSep ('\n' :: '\n' :: ((b ++ [ '\n' ]) ++ ('\n' :: '#' :: '#' :: ' ' :: t₂))) =
      '\n' :: '#' :: '#' :: ' ' :: t₂ := by
  have hshape : (b ++ [ '\n' ]) ++ ('\n' :: '#' :: '#' :: ' ' :: t₂) =
      b ++ ('\n' :: ('\n' :: '#' :: '#' :: ' ' :: t₂)) := by simp
  rw [dropToSep, if_neg (by rw [isSep_nl_nl]; exact Bool.false_ne_true)]
  rw [dropToSep, if_neg (by
    rw [isSep_nl, hshape, hh_not_prefix_append b _ hbhh (Or.inr ⟨_, rfl⟩)]
    exact Bool.false_ne_true)]
  rw [hshape, dropToSep_append b _ hbsep (Or.inr ⟨_, rfl⟩)]
  rw [dropToSep, if_neg (by rw [isSep_nl_nl]; exact Bool.false_ne_true)]
  rw [dropToSep, if_pos (by rw [isSep_sep])]

theorem getLast_through_block (x b : List Char) (c : Char) (hbc : b.getLast? = some c) :
    (x ++ ('\n' :: '\n' :: b)).getLast? = some c := by
  have hbne : b ≠ [] := by
    intro h
    rw [h] at hbc
    simp at hbc
  rw [List.getLast?_append_of_ne_nil _ (by simp)]
  rw [show ('\n' :: '\n' :: b) = [ '\n', '\n' ] ++ b from rfl,
    List.getLast?_append_of_ne_nil _ hbne]
  exact hbc

/-- Counterexample to claim C2 as stated: (i) the merge strips the document
first, so the blank before unrelated leading content is not byte-identical in
the result even though it is outside the section span; (ii) `re.sub` replaces
every span, so a second podium section after the first span's end is changed
too: the text following the first span is not preserved byte-for-byte. -/
theorem merge_locality_cex :
    Except.map (fun res => (" x\n".data).isPrefixOf res)
      (replace_podium_section " x\n## 🏆 Podium\nold".data "new".data) =
      Except.ok false ∧
    Except.map (fun res => ("\n## Next\nkeep\n## 🏆 Podium\nb".data).isSuffixOf res)
      (replace_podium_section "## 🏆 Podium\na\n## Next\nkeep\n## 🏆 Podium\nb".data
        "new".data) = Except.ok false := by
  constructor
  · rfl
  · rfl

/-- Claim C2 (amended): after the document is trimmed of leading and trailing
whitespace, for a body whose trimmed text contains no backslash (otherwise
`re.sub` treats the rebuilt section as a replacement template: an unknown
letter escape raises `re.error` and a group reference expands to the matched
span), and when the trimmed document contains exactly one section span (no
header occurrence starts before the span, and none occurs from the next
top-level header on), the merge keeps the content before the span and the
content from the next top-level header marker (or end) byte-for-byte,
replacing only the span; the initial trim and the replacement of every
further span are the only deviations from the original claim. -/
theorem merge_locality_amended (D B pre tail : List Char)
    (hbs : hasBS (pstrip B) = false)
    (hd : pstrip D = (pre ++ headerL) ++ tail)
    (hpre : scanNoHeader pre (headerL ++ tail) = true)
    (htail : containsHeader (dropToSep tail) = false) :
    replace_podium_section D B =
      Except.ok (pre ++ newPodiumSection B ++ dropToSep tail) :=
  merge_replace_path D B pre tail hbs hd hpre htail

/-- Witness for C2 (amended): the worked example of the specification. -/
theorem merge_locality_amended_witness :
    replace_podium_section "intro\n\n## 🏆 Podium\nold\n\n## Next\nkeep".data "new".data =
      Except.ok ("intro\n\n".data ++ newPodiumSection "new".data ++ "\n## Next\nkeep".data) :=
  merge_locality_amended "intro\n\n## 🏆 Podium\nold\n\n## Next\nkeep".data "new".data
    ("intro\n\n".data) ("\nold\n\n## Next\nkeep".data) (by decide) (by decide) (by decide)
    (by decide)

/-- Counterexample to claim C1 as stated: on the append path the merge ends
its output with two newlines; the second merge trims them and re-appends only
one, so the results differ by a trailing newline, character-for-character. -/
theorem merge_idempotence_cex :
    replace_podium_section "intro".data "new".data =
      Except.ok "intro\n\n## 🏆 Podium\n\nnew\n\n".data ∧
    replace_podium_section "intro\n\n## 🏆 Podium\n\nnew\n\n".data "new".data =
      Except.ok "intro\n\n## 🏆 Podium\n\nnew\n".data ∧
    "intro\n\n## 🏆 Podium\n\nnew\n".data ≠ "intro\n\n## 🏆 Podium\n\nnew\n\n".data :=
  ⟨rfl, rfl, by decide⟩

/-- Claim C1 (amended): for a well-behaved body (nonempty once trimmed, not
beginning with the top-level header marker `## `, containing no span-ending
marker `\n## ` and no backslash — a backslash would make `re.sub` process the
rebuilt section as a replacement template), the merge is idempotent
character-for-character on the replace path with a single span (as in the
locality statement); on the append path (nonempty trimmed header-free
document) the second merge returns the first result with exactly one trailing
newline removed, so idempotence holds only up to trailing whitespace there. -/
theorem merge_idempotence_amended (D B : List Char) (hB : goodBody (pstrip B) = true) :
    (∀ pre tail, pstrip D = (pre ++ headerL) ++ tail →
      scanNoHeader pre (headerL ++ tail) = true →
      containsHeader (dropToSep tail) = false →
      (replace_podium_section D B >>= fun R => replace_podium_section R B) =
        replace_podium_section D B) ∧
    (containsHeader (pstrip D) = false → pstrip D ≠ [] →
      Except.map (fun R => R ++ [ '\n' ])
          (replace_podium_section D B >>= fun R => replace_podium_section R B) =
        replace_podium_section D B) := by
  have hB3 := hB
  unfold goodBody at hB3
  rw [Bool.and_eq_true, Bool.and_eq_true, Bool.and_eq_true] at hB3
  obtain ⟨⟨⟨hBne', hBhh'⟩, hBsep'⟩, hBbs'⟩ := hB3
  have hBne : pstrip B ≠ [] := by simpa using hBne'
  have hBhh : ([ '#', '#', ' ' ] : List Char).isPrefixOf (pstrip B) = false := by
    simpa using hBhh'
  have hBsep : hasSep (pstrip B) = false := by simpa using hBsep'
  have hBbs : hasBS (pstrip B) = false := by simpa using hBbs'
  obtain ⟨bc, hbc⟩ : ∃ c, (pstrip B).getLast? = some c := by
    cases hg : (pstrip B).getLast? with
    | none => exact absurd (List.getLast?_eq_none_iff.mp hg) hBne
    | some c => exact ⟨c, rfl⟩
  have hbcws : pyWS bc = false := pstrip_getLast_not B bc hbc
  constructor
  · intro pre tail hd hpre htail
    have hR1 : replace_podium_section D B =
        Except.ok (pre ++ newPodiumSection B ++ dropToSep tail) :=
      merge_replace_path D B pre tail hBbs hd hpre htail
    have hlst : lstrip (pre ++ newPodiumSection B ++ dropToSep tail) =
        pre ++ newPodiumSection B ++ dropToSep tail := by
      cases pre with
      | nil =>
        rw [List.nil_append]
        exact lstrip_eq_self '#' _ (by decide)
      | cons c pre' =>
        have hc : pyWS c = false :=
          pstrip_head_not D c ((pre' ++ headerL) ++ tail) hd
        exact lstrip_eq_self c _ hc
    rcases dropToSep_shape tail with hts | ⟨t₂, hts⟩
    · rw [hts, List.append_nil] at hR1 hlst
      have hsplit : pre ++ newPodiumSection B =
          ((pre ++ headerL) ++ ('\n' :: '\n' :: pstrip B)) ++ [ '\n' ] := by
        unfold newPodiumSection
        simp
      have hx : pstrip (pre ++ newPodiumSection B) =
          (pre ++ headerL) ++ ('\n' :: '\n' :: pstrip B) := by
        unfold pstrip
        rw [hlst, hsplit]
        exact rstrip_append_ws _ _ bc
          (getLast_through_block (pre ++ headerL) (pstrip B) bc hbc) hbcws (by decide)
      have h2 := merge_replace_path (pre ++ newPodiumSection B) B pre
        ('\n' :: '\n' :: pstrip B) hBbs hx
        (by rw [scanNoHeader_header_indep pre ('\n' :: '\n' :: pstrip B) tail]; exact hpre)
        (by rw [dropToSep_nl_nl_body (pstrip B) hBhh hBsep]; rfl)
      rw [hR1]
      show replace_podium_section (pre ++ newPodiumSection B) B =
        Except.ok (pre ++ newPodiumSection B)
      rw [h2, dropToSep_nl_nl_body (pstrip B) hBhh hBsep, List.append_nil]
    · rw [hts] at hR1 htail hlst
      obtain ⟨t₀, ht₀⟩ := dropToSep_decomp tail
      rw [hts] at ht₀
      obtain ⟨dl, hdl⟩ : ∃ c, ('\n' :: '#' :: '#' :: ' ' :: t₂).getLast? = some c := by
        cases hg : ('\n' :: '#' :: '#' :: ' ' :: t₂).getLast? with
        | none => exact absurd (List.getLast?_eq_none_iff.mp hg) (by simp)
        | some c => exact ⟨c, rfl⟩
      have hdlws : pyWS dl = false := by
        apply pstrip_getLast_not D dl
        rw [hd, ← ht₀]
        rw [show (pre ++ headerL) ++ (t₀ ++ ('\n' :: '#' :: '#' :: ' ' :: t₂)) =
          ((pre ++ headerL) ++ t₀) ++ ('\n' :: '#' :: '#' :: ' ' :: t₂) from by simp]
        rw [List.getLast?_append_of_ne_nil _ (by simp)]
        exact hdl
      have hx : pstrip (pre ++ newPodiumSection B ++ ('\n' :: '#' :: '#' :: ' ' :: t₂)) =
          pre ++ newPodiumSection B ++ ('\n' :: '#' :: '#' :: ' ' :: t₂) := by
        unfold pstrip
        rw [hlst]
        apply rstrip_eq_self _ dl _ hdlws
        rw [List.getLast?_append_of_ne_nil _ (by simp)]
        exact hdl
      have hx2 : pstrip (pre ++ newPodiumSection B ++ ('\n' :: '#' :: '#' :: ' ' :: t₂)) =
          (pre ++ headerL) ++
            ('\n' :: '\n' :: ((pstrip B ++ [ '\n' ]) ++ ('\n' :: '#' :: '#' :: ' ' :: t₂))) := by
        rw [hx]
        unfold newPodiumSection
        simp
      have h2 := merge_replace_path
        (pre ++ newPodiumSection B ++ ('\n' :: '#' :: '#' :: ' ' :: t₂)) B pre
        ('\n' :: '\n' :: ((pstrip B ++ [ '\n' ]) ++ ('\n' :: '#' :: '#' :: ' ' :: t₂)))
        hBbs hx2
        (by rw [scanNoHeader_header_indep pre
          ('\n' :: '\n' :: ((pstrip B ++ [ '\n' ]) ++ ('\n' :: '#' :: '#' :: ' ' :: t₂))) tail]
            exact hpre)
        (by rw [dropToSep_rebuilt_section (pstrip B) t₂ hBhh hBsep]; exact htail)
      rw [hR1]
      show replace_podium_section
          (pre ++ newPodiumSection B ++ ('\n' :: '#' :: '#' :: ' ' :: t₂)) B =
        Except.ok (pre ++ newPodiumSection B ++ ('\n' :: '#' :: '#' :: ' ' :: t₂))
      rw [h2, dropToSep_rebuilt_section (pstrip B) t₂ hBhh hBsep]
  · intro hd hne
    have hR1 : replace_podium_section D B =
        Except.ok (pstrip D ++ '\n' :: '\n' :: (newPodiumSection B ++ [ '\n' ])) := by
      rw [merge_append_path D B hd, rstrip_pstrip]
    obtain ⟨dc, drest, hdc⟩ : ∃ c rest, pstrip D = c :: rest := by
      cases hg : pstrip D with
      | nil => exact absurd hg hne
      | cons c rest => exact ⟨c, rest, rfl⟩
    have hdcws : pyWS dc = false := pstrip_head_not D dc drest hdc
    have hY : pstrip D ++ '\n' :: '\n' :: (newPodiumSection B ++ [ '\n' ]) =
        (pstrip D ++ ('\n' :: '\n' :: (headerL ++ ('\n' :: '\n' :: pstrip B)))) ++
          [ '\n', '\n' ] := by
      unfold newPodiumSection
      simp
    have hXlast : (pstrip D ++ ('\n' :: '\n' :: (headerL ++ ('\n' :: '\n' :: pstrip B)))).getLast? =
        some bc := by
      rw [List.getLast?_append_of_ne_nil _ (by simp)]
      rw [show ('\n' :: '\n' :: (headerL ++ ('\n' :: '\n' :: pstrip B))) =
        [ '\n', '\n' ] ++ (headerL ++ ('\n' :: '\n' :: pstrip B)) from rfl]
      rw [List.getLast?_append_of_ne_nil _ (by simp [headerL])]
      exact getLast_through_block headerL (pstrip B) bc hbc
    have hx : pstrip (pstrip D ++ '\n' :: '\n' :: (newPodiumSection B ++ [ '\n' ])) =
        pstrip D ++ ('\n' :: '\n' :: (headerL ++ ('\n' :: '\n' :: pstrip B))) := by
      rw [show pstrip (pstrip D ++ '\n' :: '\n' :: (newPodiumSection B ++ [ '\n' ])) =
        rstrip (lstrip (pstrip D ++ '\n' :: '\n' :: (newPodiumSection B ++ [ '\n' ]))) from rfl]
      rw [show lstrip (pstrip D ++ '\n' :: '\n' :: (newPodiumSection B ++ [ '\n' ])) =
          pstrip D ++ '\n' :: '\n' :: (newPodiumSection B ++ [ '\n' ]) from by
        rw [hdc]
        exact lstrip_eq_self dc _ hdcws]
      rw [hY]
      exact rstrip_append_ws _ _ bc hXlast hbcws (by decide)
    have hx2 : pstrip (pstrip D ++ '\n' :: '\n' :: (newPodiumSection B ++ [ '\n' ])) =
        ((pstrip D ++ [ '\n', '\n' ]) ++ headerL) ++ ('\n' :: '\n' :: pstrip B) := by
      rw [hx]
      simp
    have hscan : scanNoHeader (pstrip D ++ [ '\n', '\n' ])
        (headerL ++ ('\n' :: '\n' :: pstrip B)) = true := by
      rw [scanNoHeader_append_iff, Bool.and_eq_true]
      constructor
      · exact scanNoHeader_of (pstrip D) _ hd (Or.inr ⟨_, rfl⟩)
      · simp [scanNoHeader, headerL_not_prefixOf_nl]
    have h2 := merge_replace_path
      (pstrip D ++ '\n' :: '\n' :: (newPodiumSection B ++ [ '\n' ])) B
      (pstrip D ++ [ '\n', '\n' ]) ('\n' :: '\n' :: pstrip B)
      hBbs hx2 hscan
      (by rw [dropToSep_nl_nl_body (pstrip B) hBhh hBsep]; rfl)
    rw [hR1]
    show Except.map (fun R => R ++ [ '\n' ])
        (replace_podium_section
          (pstrip D ++ '\n' :: '\n' :: (newPodiumSection B ++ [ '\n' ])) B) =
      Except.ok (pstrip D ++ '\n' :: '\n' :: (newPodiumSection B ++ [ '\n' ]))
    rw [h2]
    show Except.ok (((pstrip D ++ [ '\n', '\n' ]) ++ newPodiumSection B ++
        dropToSep ('\n' :: '\n' :: pstrip B)) ++ [ '\n' ]) =
      Except.ok (pstrip D ++ '\n' :: '\n' :: (newPodiumSection B ++ [ '\n' ]))
    refine congrArg Except.ok ?_
    rw [dropToSep_nl_nl_body (pstrip B) hBhh hBsep, List.append_nil]
    simp

/-- Witness for C1 (amended), instantiating both the replace path and the
append path at concrete inputs. -/
theorem merge_idempotence_amended_witness :
    (replace_podium_section "intro\n\n## 🏆 Podium\nold\n\n## Next\nkeep".data "new".data >>=
        fun R => replace_podium_section R "new".data) =
      replace_podium_section "intro\n\n## 🏆 Podium\nold\n\n## Next\nkeep".data "new".data ∧
    Except.map (fun R => R ++ [ '\n' ])
        (replace_podium_section "intro".data "new".data >>=
          fun R => replace_podium_section R "new".data) =
      replace_podium_section "intro".data "new".data :=
  ⟨(merge_idempotence_amended "intro\n\n## 🏆 Podium\nold\n\n## Next\nkeep".data "new".data
      (by decide)).1 ("intro\n\n".data) ("\nold\n\n## Next\nkeep".data)
      (by decide) (by decide) (by decide),
   (merge_idempotence_amended "intro".data "new".data (by decide)).2
      (by decide) (by decide)⟩

/-- Counterexample to claim C9 as stated: the code happily adds a negative
numeric damage value, so a total can decrease and end negative. -/
theorem damage_negative_cex :
    (lookupStat (aggregate_user_damage
      [⟨some "boss_damage", some "alice", some 0, FieldVal.num (-1), FieldVal.absent, none⟩])
      "alice").1 < 0 := by
  have h0 : lookupStat (aggregate_user_damage
      [⟨some "boss_damage", some "alice", some 0, FieldVal.num (-1), FieldVal.absent, none⟩])
      "alice" = ((-1 : ℚ), (0 : ℚ)) := by
    rw [lookupStat_aggregate]
    simp [damageContrib, tryAddDamage]
  rw [h0]
  norm_num

/-- Claim C9 (amended): provided every present numeric damage value in the
run is non-negative, each actor's totals are monotonically non-decreasing as
events are processed (any prefix's totals are bounded by the whole run's) and
the final totals are non-negative; a malformed value contributes exactly
zero.  (NaN does not arise in the exact-arithmetic model; the unguarded code
would also admit it through a numeric-string "nan".) -/
theorem damage_monotone_amended (l₁ l₂ : List Msg) (u : String)
    (hvals : ∀ m ∈ l₁ ++ l₂,
      (∀ x, m.userDamage = FieldVal.num x → 0 ≤ x) ∧
      (∀ y, m.bossDamage = FieldVal.num y → 0 ≤ y)) :
    (lookupStat (aggregate_user_damage l₁) u).1 ≤
      (lookupStat (aggregate_user_damage (l₁ ++ l₂)) u).1 ∧
    (lookupStat (aggregate_user_damage l₁) u).2 ≤
      (lookupStat (aggregate_user_damage (l₁ ++ l₂)) u).2 ∧
    0 ≤ (lookupStat (aggregate_user_damage (l₁ ++ l₂)) u).1 ∧
    0 ≤ (lookupStat (aggregate_user_damage (l₁ ++ l₂)) u).2 := by
  have hContrib : ∀ m ∈ l₁ ++ l₂,
      0 ≤ (damageContrib m u).1 ∧ 0 ≤ (damageContrib m u).2 := by
    intro m hm
    obtain ⟨hx, hy⟩ := hvals m hm
    unfold damageContrib
    cases m.user with
    | none => simp
    | some v =>
      show 0 ≤ (if v = "" then ((0 : ℚ), (0 : ℚ)) else if v = u then _ else _).1 ∧
        0 ≤ (if v = "" then ((0 : ℚ), (0 : ℚ)) else if v = u then _ else _).2
      split
      · simp
      · split
        · unfold tryAddDamage
          cases hud : m.userDamage with
          | bad => simp
          | absent =>
            cases hbd : m.bossDamage with
            | num y => simpa using hy y hbd
            | absent => simp
            | bad => simp
          | num x =>
            cases hbd : m.bossDamage with
            | num y => exact ⟨by simpa using hx x hud, by simpa using hy y hbd⟩
            | absent => simpa using hx x hud
            | bad => simpa using hx x hud
        · simp
  have hsum : ∀ l : List Msg, (∀ m ∈ l, 0 ≤ (damageContrib m u).1 ∧ 0 ≤ (damageContrib m u).2) →
      0 ≤ ((l.map (fun m => damageContrib m u)).sum).1 ∧
      0 ≤ ((l.map (fun m => damageContrib m u)).sum).2 := by
    intro l hl
    induction l with
    | nil => simp
    | cons m ms ih =>
      obtain ⟨h1, h2⟩ := hl m (List.mem_cons_self _ _)
      obtain ⟨h3, h4⟩ := ih (fun m' hm' => hl m' (List.mem_cons_of_mem _ hm'))
      rw [List.map_cons, List.sum_cons]
      exact ⟨by rw [Prod.fst_add]; positivity, by rw [Prod.snd_add]; positivity⟩
  have h1 : ∀ m ∈ l₁, 0 ≤ (damageContrib m u).1 ∧ 0 ≤ (damageContrib m u).2 :=
    fun m hm => hContrib m (List.mem_append_left _ hm)
  have h2 : ∀ m ∈ l₂, 0 ≤ (damageContrib m u).1 ∧ 0 ≤ (damageContrib m u).2 :=
    fun m hm => hContrib m (List.mem_append_right _ hm)
  have hsplit : lookupStat (aggregate_user_damage (l₁ ++ l₂)) u =
      lookupStat (aggregate_user_damage l₁) u + lookupStat (aggregate_user_damage l₂) u := by
    rw [lookupStat_aggregate, lookupStat_aggregate, lookupStat_aggregate,
      List.map_append, List.sum_append]
  obtain ⟨ha1, ha2⟩ := hsum l₁ h1
  obtain ⟨hb1, hb2⟩ := hsum l₂ h2
  have hSa : lookupStat (aggregate_user_damage l₁) u =
      (l₁.map (fun m => damageContrib m u)).sum := lookupStat_aggregate l₁ u
  have hSb : lookupStat (aggregate_user_damage l₂) u =
      (l₂.map (fun m => damageContrib m u)).sum := lookupStat_aggregate l₂ u
  rw [hsplit, hSa, hSb, Prod.fst_add, Prod.snd_add]
  exact ⟨by linarith, by linarith, by linarith, by linarith⟩

/-- Witness for C9 (amended) at a concrete run. -/
theorem damage_monotone_amended_witness :
    (lookupStat (aggregate_user_damage
      [⟨some "boss_damage", some "a", some 0, FieldVal.num 3, FieldVal.num 1, none⟩]) "a").1 ≤
      (lookupStat (aggregate_user_damage
        ([⟨some "boss_damage", some "a", some 0, FieldVal.num 3, FieldVal.num 1, none⟩] ++
         [⟨some "boss_damage", some "a", some 0, FieldVal.bad, FieldVal.num 2, none⟩])) "a").1 ∧
    (lookupStat (aggregate_user_damage
      [⟨some "boss_damage", some "a", some 0, FieldVal.num 3, FieldVal.num 1, none⟩]) "a").2 ≤
      (lookupStat (aggregate_user_damage
        ([⟨some "boss_damage", some "a", some 0, FieldVal.num 3, FieldVal.num 1, none⟩] ++
         [⟨some "boss_damage", some "a", some 0, FieldVal.bad, FieldVal.num 2, none⟩])) "a").2 ∧
    0 ≤ (lookupStat (aggregate_user_damage
      ([⟨some "boss_damage", some "a", some 0, FieldVal.num 3, FieldVal.num 1, none⟩] ++
       [⟨some "boss_damage", some "a", some 0, FieldVal.bad, FieldVal.num 2, none⟩])) "a").1 ∧
    0 ≤ (lookupStat (aggregate_user_damage
      ([⟨some "boss_damage", some "a", some 0, FieldVal.num 3, FieldVal.num 1, none⟩] ++
       [⟨some "boss_damage", some "a", some 0, FieldVal.bad, FieldVal.num 2, none⟩])) "a").2 :=
  damage_monotone_amended _ _ "a" (by
    intro m hm
    fin_cases hm <;> constructor <;> intro z hz <;>
      first
        | (injection hz with hz; subst hz; norm_num)
        | simp at hz)
